import Mathlib

/-!
Shallow embedding of `jriecken/dependency-graph` (src/lib/dep_graph.js).

The JS library stores a dependency graph as three `Map`s (node registry,
outgoing edge index, incoming edge index) whose values for the edge indices
are arrays, plus a `circular` flag.  `Map`s preserve insertion order, so we
model them as association lists (`List (V × β)`); JS arrays of nodes are
`List V`.

The traversal engine `createDFS` is an iterative depth-first search driven
by an explicit `todo` stack of `(node, processed)` frames.  Its `while`
loop is modelled with an explicit fuel parameter (`none` = fuel exhausted);
we prove below that a fuel of `dfsBound` is always sufficient, so the `none`
case never occurs for graphs built through the API.  Thrown errors
(`DepGraphCycleError`, "Node does not exist") are modelled with `Except`.
-/

namespace DG

set_option linter.unusedSectionVars false

variable {V : Type} [DecidableEq V]

/-- JS `Map.prototype.get`: first (unique) binding of a key, if any. -/
def mapGet : List (V × β) → V → Option β
  | [], _ => none
  | (k, v) :: rest, key => if k = key then some v else mapGet rest key

/-- Lookup with a default value (the JS code only ever calls `get` on keys
that are present, where `mapGet` returns `some`; the default is never hit on
well-formed graphs). -/
def mapGetD (m : List (V × β)) (key : V) (dflt : β) : β :=
  (mapGet m key).getD dflt

/-- JS `Map.prototype.set`: replace the binding in place if the key is
present, otherwise append a new binding (insertion order). -/
def mapSet : List (V × β) → V → β → List (V × β)
  | [], key, val => [(key, val)]
  | (k, v) :: rest, key, val =>
    if k = key then (key, val) :: rest else (k, v) :: mapSet rest key val

/-- JS `Map.prototype.delete`: remove the (unique) binding of a key. -/
def mapDelete : List (V × β) → V → List (V × β)
  | [], _ => []
  | (k, v) :: rest, key => if k = key then rest else (k, v) :: mapDelete rest key

/-- Apply a function to the value bound to a key (models in-place mutation of
the array object returned by `Map.get`, e.g. `edges.get(from).push(to)`). -/
def mapAdjust : List (V × β) → V → (β → β) → List (V × β)
  | [], _, _ => []
  | (k, v) :: rest, key, f =>
    if k = key then (k, f v) :: rest else (k, v) :: mapAdjust rest key f

/-- One frame of the iterative DFS work stack (`{ node: ..., processed: ... }`). -/
structure Frame (V : Type) where
  node : V
  processed : Bool
  deriving DecidableEq, Repr

/-- The two kinds of errors the library throws: `Error("Node does not exist: n")`
and `DepGraphCycleError(cyclePath)`. -/
inductive DepErr (V : Type) where
  | notFound (node : V)
  | cycle (path : List V)
  deriving DecidableEq, Repr

instance {ε α : Type} [DecidableEq ε] [DecidableEq α] : DecidableEq (Except ε α) :=
  fun x y =>
    match x, y with
    | .error a, .error b =>
      match decEq a b with
      | isTrue h => isTrue (by rw [h])
      | isFalse h => isFalse (by intro hc; cases hc; exact h rfl)
    | .error _, .ok _ => isFalse (by intro hc; cases hc)
    | .ok _, .error _ => isFalse (by intro hc; cases hc)
    | .ok a, .ok b =>
      match decEq a b with
      | isTrue h => isTrue (by rw [h])
      | isFalse h => isFalse (by intro hc; cases hc; exact h rfl)

/-- The `while (todo.length > 0)` loop of `createDFS`, with the mutable locals
of one `DFS(start)` invocation passed explicitly:
`todo` (head = top of stack), `inCP` (`inCurrentPath` set), `cP`
(`currentPath` array), and the per-`createDFS` state `visited` / `result`.
Children are pushed in reverse order in the JS code so that the first edge
ends up on top of the stack; with head-as-top this is exactly
`children ++ processedFrame :: rest`.  Returns `none` when out of fuel. -/
def dfsLoop (E : List (V × List V)) (lo circ : Bool) :
    Nat → List (Frame V) → List V → List V → List V → List V →
    Option (Except (DepErr V) (List V × List V))
  | 0, _, _, _, _, _ => none
  | _ + 1, [], _, _, visited, result => some (.ok (visited, result))
  | fuel + 1, f :: rest, inCP, cP, visited, result =>
    if f.processed = false then
      if f.node ∈ visited then
        dfsLoop E lo circ fuel rest inCP cP visited result
      else if f.node ∈ inCP then
        if circ then
          dfsLoop E lo circ fuel rest inCP cP visited result
        else
          some (.error (.cycle (cP ++ [f.node])))
      else
        dfsLoop E lo circ fuel
          (((mapGetD E f.node []).map (fun m => ⟨m, false⟩)) ++ ⟨f.node, true⟩ :: rest)
          (f.node :: inCP) (cP ++ [f.node]) visited result
    else
      dfsLoop E lo circ fuel rest (inCP.erase f.node) cP.dropLast (f.node :: visited)
        (if lo = false ∨ mapGetD E f.node [] = [] then result ++ [f.node] else result)

/-- One `DFS(start)` invocation: the early `visited.has(start)` return, then
the loop started with `todo = [{node: start, processed: false}]`. -/
def runDFS (E : List (V × List V)) (lo circ : Bool) (fuel : Nat)
    (st : List V × List V) (start : V) :
    Option (Except (DepErr V) (List V × List V)) :=
  if start ∈ st.1 then some (.ok st)
  else dfsLoop E lo circ fuel [⟨start, false⟩] [] [] st.1 st.2

/-- Run `DFS` over a list of start nodes in order, threading the shared
`visited` / `result` state (a `forEach` over starts on one `createDFS`). -/
def runDFSAll (E : List (V × List V)) (lo circ : Bool) (fuel : Nat) :
    List V × List V → List V → Option (Except (DepErr V) (List V × List V))
  | st, [] => some (.ok st)
  | st, s :: rest =>
    match runDFS E lo circ fuel st s with
    | none => none
    | some (.error e) => some (.error e)
    | some (.ok st') => runDFSAll E lo circ fuel st' rest

/-- Total length of all edge arrays of an edge index. -/
def esum (E : List (V × List V)) : Nat :=
  (E.map (fun p => p.2.length)).sum

/-- Fuel that is provably sufficient for one `DFS(start)` invocation over the
edge index `E` (shown in `dfsLoop_ne_none` below). -/
def dfsBound (E : List (V × List V)) : Nat :=
  E.length * (esum E + 2) + 2

/-- The `DepGraph` object: node registry (`nodes`), the two edge indices, and
the `circular` flag fixed at construction. -/
structure DepGraph (V : Type) where
  nodes : List (V × V)
  outgoingEdges : List (V × List V)
  incomingEdges : List (V × List V)
  circular : Bool
  deriving DecidableEq, Repr

/-- Constructor `new DepGraph(opts)` with `circular := opts && !!opts.circular`. -/
def mkDepGraph (circular : Bool) : DepGraph V :=
  { nodes := [], outgoingEdges := [], incomingEdges := [], circular := circular }

namespace DepGraph

/-- Method `hasNode`. -/
def hasNode (g : DepGraph V) (node : V) : Bool :=
  (mapGet g.nodes node).isSome

/-- Method `size`. -/
def size (g : DepGraph V) : Nat :=
  g.nodes.length

/-- Method `addNode(node, data)` called with two arguments
(`arguments.length === 2`): the payload is `data`, even a JS `undefined`. -/
def addNode (g : DepGraph V) (node data : V) : DepGraph V :=
  if g.hasNode node then g
  else
    { g with
      nodes := mapSet g.nodes node data
      outgoingEdges := mapSet g.outgoingEdges node []
      incomingEdges := mapSet g.incomingEdges node [] }

/-- Method `addNode(node)` called with one argument: the payload defaults to
the node identity itself. -/
def addNode1 (g : DepGraph V) (node : V) : DepGraph V :=
  if g.hasNode node then g
  else
    { g with
      nodes := mapSet g.nodes node node
      outgoingEdges := mapSet g.outgoingEdges node []
      incomingEdges := mapSet g.incomingEdges node [] }

/-- Method `removeNode`: delete all three bindings of `node`, then splice
`node` out of every remaining edge array (`v.splice(v.indexOf(node), 1)`
removes the first occurrence, i.e. `List.erase`). -/
def removeNode (g : DepGraph V) (node : V) : DepGraph V :=
  if g.hasNode node then
    { g with
      nodes := mapDelete g.nodes node
      outgoingEdges := (mapDelete g.outgoingEdges node).map (fun p => (p.1, p.2.erase node))
      incomingEdges := (mapDelete g.incomingEdges node).map (fun p => (p.1, p.2.erase node)) }
  else g

/-- Method `getNodeData`. -/
def getNodeData (g : DepGraph V) (node : V) : Except (DepErr V) V :=
  if g.hasNode node then .ok (mapGetD g.nodes node node)
  else .error (.notFound node)

/-- Method `setNodeData`. -/
def setNodeData (g : DepGraph V) (node data : V) : Except (DepErr V) (DepGraph V) :=
  if g.hasNode node then .ok { g with nodes := mapSet g.nodes node data }
  else .error (.notFound node)

/-- Method `addDependency(from, to)`: throws `Node does not exist` for a
missing endpoint; otherwise pushes `to` onto `outgoingEdges.get(from)` and
`from` onto `incomingEdges.get(to)`, each guarded by an `indexOf === -1`
duplicate check. -/
def addDependency (g : DepGraph V) (a b : V) : Except (DepErr V) (DepGraph V) :=
  if ¬ g.hasNode a then .error (.notFound a)
  else if ¬ g.hasNode b then .error (.notFound b)
  else
    .ok { g with
      outgoingEdges := mapAdjust g.outgoingEdges a (fun l => if b ∈ l then l else l ++ [b])
      incomingEdges := mapAdjust g.incomingEdges b (fun l => if a ∈ l then l else l ++ [a]) }

/-- Method `removeDependency(from, to)`: two independent guarded splices;
a silent no-op for missing nodes or edges. -/
def removeDependency (g : DepGraph V) (a b : V) : DepGraph V :=
  { g with
    outgoingEdges :=
      if g.hasNode a then mapAdjust g.outgoingEdges a (fun l => l.erase b)
      else g.outgoingEdges
    incomingEdges :=
      if g.hasNode b then mapAdjust g.incomingEdges b (fun l => l.erase a)
      else g.incomingEdges }

/-- Method `clone`: a fresh graph built by iterating `source.nodes`, sharing
payload values and copying each edge array (`slice(0)`), plus the `circular`
flag. -/
def clone (g : DepGraph V) : DepGraph V :=
  { nodes := g.nodes
    outgoingEdges := g.nodes.map (fun p => (p.1, mapGetD g.outgoingEdges p.1 []))
    incomingEdges := g.nodes.map (fun p => (p.1, mapGetD g.incomingEdges p.1 []))
    circular := g.circular }

/-- Method `directDependenciesOf` (the `slice(0)` copy is the identity on
immutable lists). -/
def directDependenciesOf (g : DepGraph V) (node : V) : Except (DepErr V) (List V) :=
  if g.hasNode node then .ok (mapGetD g.outgoingEdges node [])
  else .error (.notFound node)

/-- Method `directDependantsOf`. -/
def directDependantsOf (g : DepGraph V) (node : V) : Except (DepErr V) (List V) :=
  if g.hasNode node then .ok (mapGetD g.incomingEdges node [])
  else .error (.notFound node)

/-- Method `dependenciesOf(node, leavesOnly)`: one DFS over the outgoing
index started at `node`, then the start node is spliced out of the result. -/
def dependenciesOf (g : DepGraph V) (node : V) (lo : Bool) :
    Option (Except (DepErr V) (List V)) :=
  if g.hasNode node then
    match runDFS g.outgoingEdges lo g.circular (dfsBound g.outgoingEdges) ([], []) node with
    | none => none
    | some (.error e) => some (.error e)
    | some (.ok (_, result)) => some (.ok (result.erase node))
  else some (.error (.notFound node))

/-- Method `dependantsOf(node, leavesOnly)`: same, over the incoming index. -/
def dependantsOf (g : DepGraph V) (node : V) (lo : Bool) :
    Option (Except (DepErr V) (List V)) :=
  if g.hasNode node then
    match runDFS g.incomingEdges lo g.circular (dfsBound g.incomingEdges) ([], []) node with
    | none => none
    | some (.error e) => some (.error e)
    | some (.ok (_, result)) => some (.ok (result.erase node))
  else some (.error (.notFound node))

/-- Method `entryNodes`: identities whose incoming edge array is empty. -/
def entryNodes (g : DepGraph V) : List V :=
  (g.nodes.map Prod.fst).filter (fun n => mapGetD g.incomingEdges n [] = [])

/-- Method `overallOrder(leavesOnly)`: empty-graph short-circuit; unless
circular-tolerant, a cycle-detection sweep from every key (own `createDFS`,
result discarded); then the real DFS from all entry nodes; in circular mode a
final pass from the keys missing from the result at that point. -/
def overallOrder (g : DepGraph V) (lo : Bool) : Option (Except (DepErr V) (List V)) :=
  let keys := g.nodes.map Prod.fst
  if keys.isEmpty then some (.ok [])
  else
    let sweep :=
      if g.circular then some (.ok (([] : List V), ([] : List V)))
      else runDFSAll g.outgoingEdges false g.circular (dfsBound g.outgoingEdges) ([], []) keys
    match sweep with
    | none => none
    | some (.error e) => some (.error e)
    | some (.ok _) =>
      let entry := keys.filter (fun n => mapGetD g.incomingEdges n [] = [])
      match runDFSAll g.outgoingEdges lo g.circular (dfsBound g.outgoingEdges) ([], []) entry with
      | none => none
      | some (.error e) => some (.error e)
      | some (.ok (v₁, r₁)) =>
        if g.circular then
          let missing := keys.filter (fun n => ¬ n ∈ r₁)
          match runDFSAll g.outgoingEdges lo g.circular (dfsBound g.outgoingEdges) (v₁, r₁) missing with
          | none => none
          | some (.error e) => some (.error e)
          | some (.ok (_, r₂)) => some (.ok r₂)
        else some (.ok r₁)

end DepGraph

/-- JS `Array.prototype.join(sep)` on a list of strings. -/
def joinSep (sep : String) : List String → String
  | [] => ""
  | [s] => s
  | s :: rest => s ++ sep ++ joinSep sep rest

/-- The `DepGraphCycleError` object: carries `message` and the structured
`cyclePath` property. -/
structure DepGraphCycleError (V : Type) where
  message : String
  cyclePath : List V

/-- Construction of a `DepGraphCycleError` from a cycle path, with the
message `"Dependency Cycle Found: " + cyclePath.join(" -> ")` (elements are
rendered to strings with `render`, JS string coercion). -/
def mkCycleError (render : V → String) (cyclePath : List V) : DepGraphCycleError V :=
  { message := "Dependency Cycle Found: " ++ joinSep " -> " (cyclePath.map render)
    cyclePath := cyclePath }

/-! ## Well-formedness and specification-side predicates -/

/-- Well-formedness of the three maps of a graph, maintained by every API
mutation: the three key sequences coincide, keys are unique, edge arrays are
duplicate-free and only mention registered nodes, and the two edge indices
are symmetric on registered pairs. -/
def WF (g : DepGraph V) : Prop :=
  g.outgoingEdges.map Prod.fst = g.nodes.map Prod.fst ∧
  g.incomingEdges.map Prod.fst = g.nodes.map Prod.fst ∧
  (g.nodes.map Prod.fst).Nodup ∧
  (∀ p ∈ g.outgoingEdges, p.2.Nodup ∧ ∀ m ∈ p.2, m ∈ g.nodes.map Prod.fst) ∧
  (∀ p ∈ g.incomingEdges, p.2.Nodup ∧ ∀ m ∈ p.2, m ∈ g.nodes.map Prod.fst) ∧
  (∀ a ∈ g.nodes.map Prod.fst, ∀ b ∈ g.nodes.map Prod.fst,
    (b ∈ mapGetD g.outgoingEdges a [] ↔ a ∈ mapGetD g.incomingEdges b []))

instance (g : DepGraph V) : Decidable (WF g) := by
  unfold WF
  infer_instance

/-- The one-step edge relation of an edge index: `b` is a direct relation
target of `a`. -/
def edgeRel (E : List (V × List V)) (a b : V) : Prop :=
  b ∈ mapGetD E a []

/-- Acyclicity of an edge index: no node reaches itself through a nonempty
path. -/
def Acyclic (E : List (V × List V)) : Prop :=
  ∀ n, ¬ Relation.TransGen (edgeRel E) n n

/-- Topological validity of a result list for an edge index: every relation
target of an emitted node is emitted at a strictly earlier position. -/
def TopoOK (E : List (V × List V)) (result : List V) : Prop :=
  ∀ j a, result.get? j = some a → ∀ m ∈ mapGetD E a [],
    ∃ i, i < j ∧ result.get? i = some m

/-- Nodes of the processed frames of a work stack, top first: these are
exactly the nodes on the current DFS path, deepest first. -/
def pFrames : List (Frame V) → List V
  | [] => []
  | f :: rest => if f.processed then f.node :: pFrames rest else pFrames rest

/-- Structural invariant tying the loop locals together: `currentPath` is the
processed-frame nodes from the bottom up, `inCurrentPath` is their set, the
path has no duplicates (and neither does `inCurrentPath`), and no path node
is fully visited. -/
structure StackInv (todo : List (Frame V)) (inCP cP visited : List V) : Prop where
  hcp : cP = (pFrames todo).reverse
  hin : ∀ x, x ∈ inCP ↔ x ∈ pFrames todo
  hinnd : inCP.Nodup
  hnd : (pFrames todo).Nodup
  hdisj : ∀ x ∈ pFrames todo, x ∉ visited

/-- Shape invariant of the work stack relative to the edge index: reading the
stack from the top, each processed frame `n` has above it the frames of a
pending suffix of its edge array; the already-popped prefix (`done`) of the
edge array consists of fully visited nodes, except for the single child
currently in flight (`above`, the processed frame next above `n`), which sits
between `done` and the pending suffix. -/
inductive TodoInv (E : List (V × List V)) : List V → Option V → List (Frame V) → List V → Prop where
  | base (visited : List V) (above : Option V) (fs : List (Frame V))
      (hun : ∀ fr ∈ fs, fr.processed = false) :
      TodoInv E visited above fs []
  | cons (visited : List V) (above : Option V) (pend : List (Frame V)) (n : V)
      (rest : List (Frame V)) (ps : List V) (dn : List V)
      (hun : ∀ fr ∈ pend, fr.processed = false)
      (hdec : mapGetD E n [] = dn ++ (above.toList ++ pend.map Frame.node))
      (hdn : ∀ m ∈ dn, m ∈ visited)
      (hrest : TodoInv E visited (some n) rest ps) :
      TodoInv E visited above (pend ++ ⟨n, true⟩ :: rest) (n :: ps)

/-- Closedness of a visited set under the edge relation. -/
def VisClosed (E : List (V × List V)) (visited : List V) : Prop :=
  ∀ x ∈ visited, ∀ m ∈ mapGetD E x [], m ∈ visited

/-- Count of registered nodes not yet visited nor on the current path (the
first component of the loop's termination measure). -/
def ucount (E : List (V × List V)) (visited inCP : List V) : Nat :=
  (E.map Prod.fst).countP (fun n => decide (¬ n ∈ visited) && decide (¬ n ∈ inCP))

/-! ## Concrete graphs used by the scenario claims -/

/-- Harness helper for building test graphs: `addDependency` discarding the
(impossible on valid endpoints) error case. -/
def addDep (g : DepGraph V) (a b : V) : DepGraph V :=
  match g.addDependency a b with
  | .ok g' => g'
  | .error _ => g

/-- Cycle scenario graph of the spec: nodes `a,b,c,d` in that order, edges
`a→b, b→c, c→a, d→a`, non-circular-tolerant. -/
def gCycle : DepGraph String :=
  addDep (addDep (addDep (addDep
    (((((mkDepGraph false).addNode1 "a").addNode1 "b").addNode1 "c").addNode1 "d")
    "a" "b") "b" "c") "c" "a") "d" "a"

/-- The same nodes and edges as `gCycle`, in circular-tolerant mode. -/
def gCircular : DepGraph String :=
  addDep (addDep (addDep (addDep
    (((((mkDepGraph true).addNode1 "a").addNode1 "b").addNode1 "c").addNode1 "d")
    "a" "b") "b" "c") "c" "a") "d" "a"

/-- Ordering scenario graph of the spec: nodes `a,b,c,d`, edges
`a→d, a→b, b→c, d→b`. -/
def gOrd : DepGraph String :=
  addDep (addDep (addDep (addDep
    (((((mkDepGraph false).addNode1 "a").addNode1 "b").addNode1 "c").addNode1 "d")
    "a" "d") "a" "b") "b" "c") "d" "b"

/-- Small acyclic well-formed graph (nodes `a,b`, edge `a→b`) used to witness
the universally quantified theorems. -/
def gWit : DepGraph String :=
  addDep (((mkDepGraph false).addNode1 "a").addNode1 "b") "a" "b"

/-! ## Heap model for `clone` independence (claim about `slice(0)`)

The JS graph stores each edge set as a mutable array object; `clone` copies
each array with `slice(0)` while `addDependency` / `removeDependency` mutate
the array in place.  To state that mutating the clone's arrays cannot change
the source's arrays (and vice versa) we refine the edge indices to maps from
node to an *array id* into an explicit heap of arrays; `slice(0)` becomes
allocation of a fresh id with copied contents. -/

/-- A heap of array objects: contents indexed by allocation id, plus the next
fresh id. -/
structure HHeap (V : Type) where
  arrs : List (Nat × List V)
  next : Nat
  deriving DecidableEq, Repr

/-- A graph whose edge indices hold array ids into an `HHeap`. -/
structure HGraph (V : Type) where
  nodes : List (V × V)
  outgoing : List (V × Nat)
  incoming : List (V × Nat)
  circular : Bool
  deriving DecidableEq, Repr

/-- Allocate a fresh array with the given contents; returns the new heap and
the new array's id. -/
def halloc (h : HHeap V) (xs : List V) : HHeap V × Nat :=
  ({ arrs := h.arrs ++ [(h.next, xs)], next := h.next + 1 }, h.next)

/-- Read an array's contents. -/
def hread (h : HHeap V) (i : Nat) : List V :=
  mapGetD h.arrs i []

/-- Overwrite an array's contents in place (the id keeps pointing at the same
object). -/
def hwrite (h : HHeap V) (i : Nat) (xs : List V) : HHeap V :=
  { h with arrs := mapAdjust h.arrs i (fun _ => xs) }

/-- The `source.nodes.forEach` body of `clone` in the heap model: for each
node, allocate copies (`slice(0)`) of its outgoing and incoming arrays.
(The id defaults `0` are never read on well-formed graphs, where every node
has a binding in both indices.) -/
def hcloneAux (g : HGraph V) : HHeap V → List (V × V) →
    HHeap V × List (V × Nat) × List (V × Nat)
  | h, [] => (h, [], [])
  | h, (n, _) :: rest =>
    let o := halloc h (hread h (mapGetD g.outgoing n 0))
    let i := halloc o.1 (hread o.1 (mapGetD g.incoming n 0))
    let r := hcloneAux g i.1 rest
    (r.1, (n, o.2) :: r.2.1, (n, i.2) :: r.2.2)

/-- Method `clone` in the heap model: same node registry (payloads shared),
same `circular` flag, freshly allocated copies of every edge array. -/
def hclone (h : HHeap V) (g : HGraph V) : HHeap V × HGraph V :=
  let r := hcloneAux g h g.nodes
  (r.1, { nodes := g.nodes, outgoing := r.2.1, incoming := r.2.2,
          circular := g.circular })

/-- Method `addDependency` in the heap model: mutates the two arrays in
place (guarded pushes), leaving the graph structure untouched. -/
def haddDependency (h : HHeap V) (g : HGraph V) (a b : V) :
    Except (DepErr V) (HHeap V) :=
  if ¬ (mapGet g.nodes a).isSome then .error (.notFound a)
  else if ¬ (mapGet g.nodes b).isSome then .error (.notFound b)
  else
    let oid := mapGetD g.outgoing a 0
    let l₁ := hread h oid
    let h₁ := if b ∈ l₁ then h else hwrite h oid (l₁ ++ [b])
    let iid := mapGetD g.incoming b 0
    let l₂ := hread h₁ iid
    let h₂ := if a ∈ l₂ then h₁ else hwrite h₁ iid (l₂ ++ [a])
    .ok h₂

/-- Method `removeDependency` in the heap model: two independent guarded
in-place splices. -/
def hremoveDependency (h : HHeap V) (g : HGraph V) (a b : V) : HHeap V :=
  let h₁ :=
    if (mapGet g.nodes a).isSome then
      hwrite h (mapGetD g.outgoing a 0)
        ((hread h (mapGetD g.outgoing a 0)).erase b)
    else h
  if (mapGet g.nodes b).isSome then
    hwrite h₁ (mapGetD g.incoming b 0)
      ((hread h₁ (mapGetD g.incoming b 0)).erase a)
  else h₁

/-- Well-formedness of a heap-model graph: edge indices bind exactly the
registered nodes, node keys are unique, and every array id is live (below
the heap's allocation counter). -/
structure HWF (h : HHeap V) (g : HGraph V) : Prop where
  hok : g.outgoing.map Prod.fst = g.nodes.map Prod.fst
  hik : g.incoming.map Prod.fst = g.nodes.map Prod.fst
  hnd : (g.nodes.map Prod.fst).Nodup
  hbound : ∀ n ∈ g.nodes.map Prod.fst,
    mapGetD g.outgoing n 0 < h.next ∧ mapGetD g.incoming n 0 < h.next
  hheap : ∀ p ∈ h.arrs, p.1 < h.next

instance (h : HHeap V) (g : HGraph V) : Decidable (HWF h g) :=
  decidable_of_iff
    (g.outgoing.map Prod.fst = g.nodes.map Prod.fst ∧
     g.incoming.map Prod.fst = g.nodes.map Prod.fst ∧
     (g.nodes.map Prod.fst).Nodup ∧
     (∀ n ∈ g.nodes.map Prod.fst,
       mapGetD g.outgoing n 0 < h.next ∧ mapGetD g.incoming n 0 < h.next) ∧
     (∀ p ∈ h.arrs, p.1 < h.next))
    ⟨fun ⟨a, b, c, d, e⟩ => ⟨a, b, c, d, e⟩, fun ⟨a, b, c, d, e⟩ => ⟨a, b, c, d, e⟩⟩

/-- Concrete heap-model graph for witnessing the clone theorem: nodes `a,b`
with edge `a→b`, arrays at ids 0–3. -/
def hWit : HHeap String :=
  { arrs := [(0, ["b"]), (1, []), (2, []), (3, ["a"])], next := 4 }

/-- The graph structure over `hWit`: outgoing `a ↦ id 0`, `b ↦ id 1`;
incoming `a ↦ id 2`, `b ↦ id 3`. -/
def gHWit : HGraph String :=
  { nodes := [("a", "a"), ("b", "b")]
    outgoing := [("a", 0), ("b", 1)]
    incoming := [("a", 2), ("b", 3)]
    circular := false }

/-! ## Association-list lemmas -/

theorem mapGet_eq_none {β : Type} (m : List (V × β)) (k : V)
    (h : ¬ k ∈ m.map Prod.fst) : mapGet m k = none := by
  induction m with
  | nil => rfl
  | cons p rest ih =>
    obtain ⟨a, w⟩ := p
    simp only [List.map_cons, List.mem_cons] at h
    push_neg at h
    have ha : ¬ a = k := fun hk => h.1 hk.symm
    simp [mapGet, ha, ih h.2]

theorem mapGet_isSome_iff {β : Type} (m : List (V × β)) (k : V) :
    (mapGet m k).isSome = true ↔ k ∈ m.map Prod.fst := by
  induction m with
  | nil => simp [mapGet]
  | cons p rest ih =>
    by_cases h : p.1 = k
    · subst h
      simp [mapGet]
    · simp only [mapGet, if_neg h, List.map_cons, List.mem_cons, ih]
      constructor
      · intro hm
        exact .inr hm
      · rintro (hm | hm)
        · exact absurd hm.symm h
        · exact hm

theorem mapGet_mem {β : Type} {m : List (V × β)} {k : V} {v : β}
    (h : mapGet m k = some v) : (k, v) ∈ m := by
  induction m with
  | nil => simp [mapGet] at h
  | cons p rest ih =>
    obtain ⟨a, w⟩ := p
    by_cases hk : a = k
    · subst hk
      simp only [mapGet, if_true, eq_self_iff_true, Option.some.injEq] at h
      subst h
      exact List.mem_cons_self _ _
    · simp only [mapGet, if_neg hk] at h
      exact List.mem_cons_of_mem _ (ih h)

theorem mapGet_append {β : Type} (m₁ m₂ : List (V × β)) (k : V) :
    mapGet (m₁ ++ m₂) k =
      match mapGet m₁ k with
      | some v => some v
      | none => mapGet m₂ k := by
  induction m₁ with
  | nil => simp [mapGet]
  | cons p rest ih =>
    by_cases hk : p.1 = k
    · simp [mapGet, hk]
    · simp [mapGet, hk, ih]

theorem mapGet_mapSet_self {β : Type} (m : List (V × β)) (k : V) (v : β) :
    mapGet (mapSet m k v) k = some v := by
  induction m with
  | nil => simp [mapSet, mapGet]
  | cons p rest ih =>
    by_cases hk : p.1 = k
    · simp [mapSet, hk, mapGet]
    · simp [mapSet, hk, mapGet, ih]

theorem mapSet_eq_append {β : Type} (m : List (V × β)) (k : V) (v : β)
    (h : ¬ k ∈ m.map Prod.fst) : mapSet m k v = m ++ [(k, v)] := by
  induction m with
  | nil => rfl
  | cons p rest ih =>
    obtain ⟨a, w⟩ := p
    simp only [List.map_cons, List.mem_cons] at h
    push_neg at h
    have ha : ¬ a = k := fun hk => h.1 hk.symm
    simp [mapSet, ha, ih h.2]

theorem mapGet_map_value {β γ : Type} (m : List (V × β)) (f : β → γ) (k : V) :
    mapGet (m.map (fun p => (p.1, f p.2))) k = (mapGet m k).map f := by
  induction m with
  | nil => rfl
  | cons p rest ih =>
    by_cases hk : p.1 = k
    · simp [mapGet, hk]
    · simp [mapGet, hk, ih]

theorem mapDelete_map_fst {β : Type} (m : List (V × β)) (k : V) :
    (mapDelete m k).map Prod.fst = (m.map Prod.fst).erase k := by
  induction m with
  | nil => rfl
  | cons p rest ih =>
    by_cases hk : p.1 = k
    · subst hk
      simp [mapDelete, List.erase_cons_head]
    · rw [show (p :: rest).map Prod.fst = p.1 :: rest.map Prod.fst from rfl,
        List.erase_cons_tail]
      · simp [mapDelete, hk, ih]
      · simp [hk]

theorem mapDelete_sublist {β : Type} (m : List (V × β)) (k : V) :
    (mapDelete m k).Sublist m := by
  induction m with
  | nil => simp [mapDelete]
  | cons p rest ih =>
    obtain ⟨a, w⟩ := p
    by_cases hk : a = k
    · simp only [mapDelete, if_pos hk]
      exact (List.Sublist.refl rest).cons _
    · simp only [mapDelete, if_neg hk]
      exact ih.cons₂ _

theorem mapGet_mapDelete_ne {β : Type} (m : List (V × β)) (k k' : V)
    (h : ¬ k' = k) : mapGet (mapDelete m k) k' = mapGet m k' := by
  induction m with
  | nil => rfl
  | cons p rest ih =>
    obtain ⟨a, w⟩ := p
    by_cases hk : a = k
    · subst hk
      have ha : ¬ a = k' := fun hc => h hc.symm
      simp [mapDelete, mapGet, ha]
    · by_cases hk' : a = k'
      · simp [mapDelete, hk, mapGet, hk', h]
      · simp [mapDelete, hk, mapGet, hk', ih]

theorem mapGet_mapDelete_self {β : Type} (m : List (V × β)) (k : V)
    (hnd : (m.map Prod.fst).Nodup) : mapGet (mapDelete m k) k = none := by
  induction m with
  | nil => rfl
  | cons p rest ih =>
    obtain ⟨a, w⟩ := p
    simp only [List.map_cons, List.nodup_cons] at hnd
    by_cases hk : a = k
    · subst hk
      simp only [mapDelete, if_pos rfl]
      exact mapGet_eq_none _ _ hnd.1
    · simp only [mapDelete, if_neg hk, mapGet, if_neg hk]
      exact ih hnd.2

theorem mapAdjust_map_fst {β : Type} (m : List (V × β)) (k : V) (f : β → β) :
    (mapAdjust m k f).map Prod.fst = m.map Prod.fst := by
  induction m with
  | nil => rfl
  | cons p rest ih =>
    by_cases hk : p.1 = k
    · simp [mapAdjust, hk]
    · simp [mapAdjust, hk, ih]

theorem mapGet_mapAdjust_self {β : Type} (m : List (V × β)) (k : V) (f : β → β) :
    mapGet (mapAdjust m k f) k = (mapGet m k).map f := by
  induction m with
  | nil => rfl
  | cons p rest ih =>
    by_cases hk : p.1 = k
    · simp [mapAdjust, hk, mapGet]
    · simp [mapAdjust, hk, mapGet, ih]

theorem mapGet_mapAdjust_ne {β : Type} (m : List (V × β)) (k k' : V) (f : β → β)
    (h : ¬ k' = k) : mapGet (mapAdjust m k f) k' = mapGet m k' := by
  induction m with
  | nil => rfl
  | cons p rest ih =>
    obtain ⟨a, w⟩ := p
    by_cases hk : a = k
    · subst hk
      simp only [mapAdjust, if_pos rfl, mapGet,
        if_neg (fun hc : a = k' => h hc.symm)]
    · by_cases hk' : a = k'
      · simp only [mapAdjust, if_neg hk, mapGet, if_pos hk']
      · simp only [mapAdjust, if_neg hk, mapGet, if_neg hk', ih]

theorem mapAdjust_mem {β : Type} {m : List (V × β)} {k : V} {f : β → β} {p : V × β}
    (h : p ∈ mapAdjust m k f) : p ∈ m ∨ ∃ v, (k, v) ∈ m ∧ p = (k, f v) := by
  induction m with
  | nil => simp [mapAdjust] at h
  | cons q rest ih =>
    by_cases hk : q.1 = k
    · simp only [mapAdjust, if_pos hk] at h
      rcases List.mem_cons.mp h with h | h
      · subst hk
        exact .inr ⟨q.2, List.mem_cons_self _ _, by rw [h]⟩
      · exact .inl (List.mem_cons_of_mem _ h)
    · simp only [mapAdjust, if_neg hk] at h
      rcases List.mem_cons.mp h with h | h
      · exact .inl (h ▸ List.mem_cons_self _ _)
      · rcases ih h with h | ⟨v, hv, hp⟩
        · exact .inl (List.mem_cons_of_mem _ h)
        · exact .inr ⟨v, List.mem_cons_of_mem _ hv, hp⟩

theorem mapGetD_length_le_esum (E : List (V × List V)) (k : V) :
    (mapGetD E k []).length ≤ esum E := by
  induction E with
  | nil => simp [mapGetD, mapGet, esum]
  | cons p rest ih =>
    by_cases hk : p.1 = k
    · simp only [mapGetD, mapGet, if_pos hk, Option.getD_some, esum,
        List.map_cons, List.sum_cons]
      exact Nat.le_add_right _ _
    · simp only [mapGetD, mapGet, if_neg hk, esum, List.map_cons, List.sum_cons]
      exact le_trans ih (Nat.le_add_left _ _)

theorem hasNode_iff (g : DepGraph V) (n : V) :
    g.hasNode n = true ↔ n ∈ g.nodes.map Prod.fst :=
  mapGet_isSome_iff g.nodes n

/-! ## Step equations of the DFS loop -/

theorem dfsLoop_zero (E : List (V × List V)) (lo circ : Bool)
    (todo : List (Frame V)) (inCP cP visited result : List V) :
    dfsLoop E lo circ 0 todo inCP cP visited result = none := rfl

theorem dfsLoop_nil (E : List (V × List V)) (lo circ : Bool) (fuel : Nat)
    (inCP cP visited result : List V) :
    dfsLoop E lo circ (fuel + 1) [] inCP cP visited result =
      some (.ok (visited, result)) := rfl

theorem dfsLoop_cons_false (E : List (V × List V)) (lo circ : Bool) (fuel : Nat)
    (n : V) (rest : List (Frame V)) (inCP cP visited result : List V) :
    dfsLoop E lo circ (fuel + 1) (⟨n, false⟩ :: rest) inCP cP visited result =
      if n ∈ visited then
        dfsLoop E lo circ fuel rest inCP cP visited result
      else if n ∈ inCP then
        if circ then dfsLoop E lo circ fuel rest inCP cP visited result
        else some (.error (.cycle (cP ++ [n])))
      else
        dfsLoop E lo circ fuel
          (((mapGetD E n []).map (fun m => ⟨m, false⟩)) ++ ⟨n, true⟩ :: rest)
          (n :: inCP) (cP ++ [n]) visited result := rfl

theorem dfsLoop_cons_true (E : List (V × List V)) (lo circ : Bool) (fuel : Nat)
    (n : V) (rest : List (Frame V)) (inCP cP visited result : List V) :
    dfsLoop E lo circ (fuel + 1) (⟨n, true⟩ :: rest) inCP cP visited result =
      dfsLoop E lo circ fuel rest (inCP.erase n) cP.dropLast (n :: visited)
        (if lo = false ∨ mapGetD E n [] = [] then result ++ [n] else result) := rfl

/-! ## The current-path structural invariant of the DFS loop -/

theorem pFrames_unproc_cons (n : V) (rest : List (Frame V)) :
    pFrames (⟨n, false⟩ :: rest) = pFrames rest := by
  simp [pFrames]

theorem pFrames_proc_cons (n : V) (rest : List (Frame V)) :
    pFrames (⟨n, true⟩ :: rest) = n :: pFrames rest := by
  simp [pFrames]

theorem pFrames_append_unproc (l rest : List (Frame V))
    (h : ∀ fr ∈ l, fr.processed = false) :
    pFrames (l ++ rest) = pFrames rest := by
  induction l with
  | nil => rfl
  | cons f l ih =>
    obtain ⟨n, pr⟩ := f
    have := h ⟨n, pr⟩ (List.mem_cons_self _ _)
    simp only at this
    subst this
    rw [List.cons_append, pFrames_unproc_cons]
    exact ih (fun fr hfr => h fr (List.mem_cons_of_mem _ hfr))

theorem stackInv_start (s : V) (visited : List V) :
    StackInv [(⟨s, false⟩ : Frame V)] [] [] visited := by
  refine ⟨?_, ?_, ?_, ?_, ?_⟩ <;> simp [pFrames]

theorem StackInv.pop_unproc {n : V} {todo : List (Frame V)} {inCP cP visited : List V}
    (h : StackInv (⟨n, false⟩ :: todo) inCP cP visited) :
    StackInv todo inCP cP visited := by
  obtain ⟨hcp, hin, hinnd, hnd, hdisj⟩ := h
  rw [pFrames_unproc_cons] at hcp hin hnd hdisj
  exact ⟨hcp, hin, hinnd, hnd, hdisj⟩

theorem StackInv.flip {n : V} {todo : List (Frame V)} {inCP cP visited : List V}
    (h : StackInv (⟨n, false⟩ :: todo) inCP cP visited)
    (hn_in : ¬ n ∈ inCP) (hn_vis : ¬ n ∈ visited) (children : List V) :
    StackInv ((children.map fun m => (⟨m, false⟩ : Frame V)) ++ ⟨n, true⟩ :: todo)
      (n :: inCP) (cP ++ [n]) visited := by
  obtain ⟨hcp, hin, hinnd, hnd, hdisj⟩ := h
  rw [pFrames_unproc_cons] at hcp hin hnd hdisj
  have hch : ∀ fr ∈ children.map fun m => (⟨m, false⟩ : Frame V), fr.processed = false := by
    intro fr hfr
    rcases List.mem_map.mp hfr with ⟨m, _, rfl⟩
    rfl
  have hpf : pFrames ((children.map fun m => (⟨m, false⟩ : Frame V)) ++ ⟨n, true⟩ :: todo)
      = n :: pFrames todo := by
    rw [pFrames_append_unproc _ _ hch, pFrames_proc_cons]
  have hn_pf : ¬ n ∈ pFrames todo := fun hc => hn_in ((hin n).mpr hc)
  refine ⟨?_, ?_, ?_, ?_, ?_⟩
  · rw [hpf, List.reverse_cons, hcp]
  · intro x
    rw [hpf]
    simp only [List.mem_cons, hin x]
  · exact List.nodup_cons.mpr ⟨hn_in, hinnd⟩
  · rw [hpf]
    exact List.nodup_cons.mpr ⟨hn_pf, hnd⟩
  · intro x hx
    rw [hpf] at hx
    rcases List.mem_cons.mp hx with rfl | hx
    · exact hn_vis
    · exact hdisj x hx

theorem StackInv.pop_proc {n : V} {todo : List (Frame V)} {inCP cP visited : List V}
    (h : StackInv (⟨n, true⟩ :: todo) inCP cP visited) :
    StackInv todo (inCP.erase n) cP.dropLast (n :: visited)
      ∧ cP = (pFrames todo).reverse ++ [n] ∧ n ∈ inCP ∧ ¬ n ∈ visited
      ∧ ¬ n ∈ pFrames todo := by
  obtain ⟨hcp, hin, hinnd, hnd, hdisj⟩ := h
  rw [pFrames_proc_cons] at hcp hin hnd hdisj
  have hn_pf : ¬ n ∈ pFrames todo := (List.nodup_cons.mp hnd).1
  have hn_in : n ∈ inCP := (hin n).mpr (List.mem_cons_self _ _)
  have hn_vis : ¬ n ∈ visited := hdisj n (List.mem_cons_self _ _)
  have hcp' : cP = (pFrames todo).reverse ++ [n] := by
    rw [hcp, List.reverse_cons]
  refine ⟨⟨?_, ?_, ?_, ?_, ?_⟩, hcp', hn_in, hn_vis, hn_pf⟩
  · rw [hcp', List.dropLast_concat]
  · intro x
    rw [hinnd.mem_erase_iff]
    constructor
    · rintro ⟨hne, hx⟩
      rcases List.mem_cons.mp ((hin x).mp hx) with rfl | hx'
      · exact absurd rfl hne
      · exact hx'
    · intro hx
      exact ⟨fun hc => hn_pf (hc ▸ hx), (hin x).mpr (List.mem_cons_of_mem _ hx)⟩
  · exact hinnd.erase n
  · exact (List.nodup_cons.mp hnd).2
  · intro x hx
    simp only [List.mem_cons]
    push_neg
    exact ⟨fun hc => hn_pf (hc ▸ hx), hdisj x (List.mem_cons_of_mem _ hx)⟩

/-! ## Error shape: every thrown cycle path closes an earlier occurrence -/

theorem dfsLoop_error_shape (E : List (V × List V)) (lo circ : Bool) :
    ∀ fuel (todo : List (Frame V)) inCP cP visited result e,
    StackInv todo inCP cP visited →
    dfsLoop E lo circ fuel todo inCP cP visited result = some (.error e) →
    ∃ cp m, e = .cycle (cp ++ [m]) ∧ m ∈ cp := by
  intro fuel
  induction fuel with
  | zero =>
    intro todo inCP cP visited result e _ h
    simp [dfsLoop_zero] at h
  | succ fuel ih =>
    intro todo inCP cP visited result e hinv h
    match todo with
    | [] => simp [dfsLoop_nil] at h
    | ⟨n, pr⟩ :: rest =>
      cases pr with
      | false =>
        rw [dfsLoop_cons_false] at h
        split_ifs at h with h1 h2 h3
        · exact ih _ _ _ _ _ _ hinv.pop_unproc h
        · exact ih _ _ _ _ _ _ hinv.pop_unproc h
        · refine ⟨cP, n, ?_, ?_⟩
          · cases h
            rfl
          · have hmem : n ∈ pFrames rest := by
              have := (hinv.hin n).mp h2
              rwa [pFrames_unproc_cons] at this
            rw [hinv.hcp, pFrames_unproc_cons]
            exact List.mem_reverse.mpr hmem
        · exact ih _ _ _ _ _ _ (hinv.flip h2 h1 _) h
      | true =>
        rw [dfsLoop_cons_true] at h
        exact ih _ _ _ _ _ _ hinv.pop_proc.1 h

/-- In circular-tolerant mode the loop never throws. -/
theorem dfsLoop_circ_no_error (E : List (V × List V)) (lo : Bool) :
    ∀ fuel (todo : List (Frame V)) inCP cP visited result e,
    ¬ dfsLoop E lo true fuel todo inCP cP visited result = some (.error e) := by
  intro fuel
  induction fuel with
  | zero =>
    intro todo inCP cP visited result e h
    simp [dfsLoop_zero] at h
  | succ fuel ih =>
    intro todo inCP cP visited result e h
    match todo with
    | [] => simp [dfsLoop_nil] at h
    | ⟨n, pr⟩ :: rest =>
      cases pr with
      | false =>
        rw [dfsLoop_cons_false] at h
        split_ifs at h <;> first
          | exact ih _ _ _ _ _ _ h
          | exact absurd rfl (by assumption)
      | true =>
        rw [dfsLoop_cons_true] at h
        exact ih _ _ _ _ _ _ h

/-! ## Successful-run facts (full output mode) -/

theorem mapGetD_closed (E : List (V × List V))
    (hcl : ∀ p ∈ E, ∀ m ∈ p.2, m ∈ E.map Prod.fst) (n : V) :
    ∀ m ∈ mapGetD E n [], m ∈ E.map Prod.fst := by
  intro m hm
  unfold mapGetD at hm
  cases hget : mapGet E n with
  | none => rw [hget] at hm; simp at hm
  | some l =>
    rw [hget] at hm
    exact hcl _ (mapGet_mem hget) m hm

/-- Invariants established by a completed loop run with `leavesOnly = false`:
the result enumerates exactly the visited set without duplicates, the visited
set only grows, and every pending frame node and current-path node ends up
visited. -/
theorem dfsLoop_ok_facts (E : List (V × List V)) (circ : Bool) :
    ∀ fuel (todo : List (Frame V)) inCP cP visited result visited' result',
    StackInv todo inCP cP visited →
    (∀ x, x ∈ result ↔ x ∈ visited) → result.Nodup →
    dfsLoop E false circ fuel todo inCP cP visited result = some (.ok (visited', result')) →
    (∀ x, x ∈ result' ↔ x ∈ visited') ∧ result'.Nodup ∧
    (∀ x ∈ visited, x ∈ visited') ∧ (∀ fr ∈ todo, fr.node ∈ visited') ∧
    (∀ x ∈ inCP, x ∈ visited') ∧ ∃ tl, result' = result ++ tl := by
  intro fuel
  induction fuel with
  | zero =>
    intro todo inCP cP visited result visited' result' _ _ _ h
    simp [dfsLoop_zero] at h
  | succ fuel ih =>
    intro todo inCP cP visited result visited' result' hinv hres hndr h
    match todo with
    | [] =>
      rw [dfsLoop_nil] at h
      obtain ⟨hv, hr⟩ : visited = visited' ∧ result = result' := by
        cases h
        exact ⟨rfl, rfl⟩
      subst hv
      subst hr
      refine ⟨hres, hndr, fun x hx => hx, by simp, ?_, [], by simp⟩
      intro x hx
      have := (hinv.hin x).mp hx
      simp [pFrames] at this
    | ⟨n, pr⟩ :: rest =>
      cases pr with
      | false =>
        rw [dfsLoop_cons_false] at h
        split_ifs at h with h1 h2 h3
        · obtain ⟨r1, r2, r3, r4, r5, r6⟩ := ih _ _ _ _ _ _ _ hinv.pop_unproc hres hndr h
          refine ⟨r1, r2, r3, ?_, r5, r6⟩
          intro fr hfr
          rcases List.mem_cons.mp hfr with rfl | hfr
          · exact r3 _ h1
          · exact r4 fr hfr
        · obtain ⟨r1, r2, r3, r4, r5, r6⟩ := ih _ _ _ _ _ _ _ hinv.pop_unproc hres hndr h
          refine ⟨r1, r2, r3, ?_, r5, r6⟩
          intro fr hfr
          rcases List.mem_cons.mp hfr with rfl | hfr
          · exact r5 _ h2
          · exact r4 fr hfr
        · cases h
        · obtain ⟨r1, r2, r3, r4, r5, r6⟩ :=
            ih _ _ _ _ _ _ _ (hinv.flip h2 h1 _) hres hndr h
          refine ⟨r1, r2, r3, ?_, ?_, r6⟩
          · intro fr hfr
            rcases List.mem_cons.mp hfr with rfl | hfr
            · exact r5 _ (List.mem_cons_self _ _)
            · exact r4 fr (List.mem_append_right _ (List.mem_cons_of_mem _ hfr))
          · intro x hx
            exact r5 x (List.mem_cons_of_mem _ hx)
      | true =>
        rw [dfsLoop_cons_true] at h
        obtain ⟨hinv', hcp', hn_in, hn_vis, hn_pf⟩ := hinv.pop_proc
        have hcond : (false = false ∨ mapGetD E n [] = []) := .inl rfl
        rw [if_pos hcond] at h
        have hn_res : ¬ n ∈ result := fun hc => hn_vis ((hres n).mp hc)
        have hres' : ∀ x, x ∈ result ++ [n] ↔ x ∈ n :: visited := by
          intro x
          simp only [List.mem_append, List.mem_singleton, List.mem_cons, hres x]
          tauto
        have hndr' : (result ++ [n]).Nodup := by
          rw [List.nodup_append]
          exact ⟨hndr, List.nodup_singleton n, by simpa using hn_res⟩
        obtain ⟨r1, r2, r3, r4, r5, r6⟩ := ih _ _ _ _ _ _ _ hinv' hres' hndr' h
        have hn_vis' : n ∈ visited' := r3 _ (List.mem_cons_self _ _)
        refine ⟨r1, r2, ?_, ?_, ?_, ?_⟩
        · intro x hx
          exact r3 _ (List.mem_cons_of_mem _ hx)
        · intro fr hfr
          rcases List.mem_cons.mp hfr with rfl | hfr
          · exact hn_vis'
          · exact r4 fr hfr
        · intro x hx
          by_cases hxn : x = n
          · exact hxn ▸ hn_vis'
          · exact r5 x ((List.mem_erase_of_ne hxn).mpr hx)
        · obtain ⟨tl, htl⟩ := r6
          exact ⟨n :: tl, by simp [htl]⟩

/-! ## Fuel sufficiency: the loop terminates within `dfsBound` steps -/

theorem countP_le_of_imp {p q : V → Bool} :
    ∀ l : List V, (∀ x ∈ l, q x = true → p x = true) →
    l.countP q ≤ l.countP p := by
  intro l
  induction l with
  | nil => simp
  | cons a t iht =>
    intro himp
    have ht : t.countP q ≤ t.countP p :=
      iht (fun x hx => himp x (List.mem_cons_of_mem _ hx))
    rw [List.countP_cons, List.countP_cons]
    by_cases hq : q a = true
    · rw [himp a (List.mem_cons_self _ _) hq, hq]
      simpa using ht
    · have hqa : q a = false := by simpa using hq
      rw [hqa]
      simp only [Bool.false_eq_true, if_false, add_zero]
      exact le_trans ht (Nat.le_add_right _ _)

theorem countP_lt_of_mem {p q : V → Bool} :
    ∀ (l : List V) (a : V), a ∈ l → p a = true → q a = false →
    (∀ x ∈ l, q x = true → p x = true) →
    l.countP q < l.countP p := by
  intro l
  induction l with
  | nil => intro a ha; simp at ha
  | cons b t iht =>
    intro a ha hpa hqa himp
    rw [List.countP_cons, List.countP_cons]
    have ht : t.countP q ≤ t.countP p :=
      countP_le_of_imp t (fun x hx => himp x (List.mem_cons_of_mem _ hx))
    rcases List.mem_cons.mp ha with rfl | ha'
    · rw [hpa, hqa]
      simpa using Nat.lt_succ_of_le ht
    · have htlt : t.countP q < t.countP p :=
        iht a ha' hpa hqa (fun x hx => himp x (List.mem_cons_of_mem _ hx))
      by_cases hq : q b = true
      · rw [hq, himp b (List.mem_cons_self _ _) hq]
        simpa using htlt
      · have hqb : q b = false := by simpa using hq
        rw [hqb]
        simp only [Bool.false_eq_true, if_false, add_zero]
        exact lt_of_lt_of_le htlt (Nat.le_add_right _ _)

theorem ucount_flip (E : List (V × List V)) {visited inCP : List V} {n : V}
    (hn : n ∈ E.map Prod.fst) (hnv : ¬ n ∈ visited) (hni : ¬ n ∈ inCP) :
    ucount E visited (n :: inCP) + 1 ≤ ucount E visited inCP := by
  refine countP_lt_of_mem _ n hn ?_ ?_ ?_
  · simp [hnv, hni]
  · simp
  · intro x _ hx
    simp only [Bool.and_eq_true, decide_eq_true_eq, List.mem_cons] at hx ⊢
    exact ⟨hx.1, fun hc => hx.2 (.inr hc)⟩

theorem ucount_pop (E : List (V × List V)) (visited inCP : List V) (n : V) :
    ucount E (n :: visited) (inCP.erase n) ≤ ucount E visited inCP := by
  refine countP_le_of_imp _ ?_
  intro x _ hx
  simp only [Bool.and_eq_true, decide_eq_true_eq, List.mem_cons] at hx ⊢
  push_neg at hx
  refine ⟨hx.1.2, fun hc => hx.2 ?_⟩
  exact (List.mem_erase_of_ne hx.1.1).mpr hc

theorem ucount_le_length (E : List (V × List V)) (visited inCP : List V) :
    ucount E visited inCP ≤ E.length := by
  calc ucount E visited inCP ≤ (E.map Prod.fst).length := List.countP_le_length _
  _ = E.length := List.length_map _ _

/-- With fuel at least `ucount * (esum + 2) + |todo| + 1`, the loop cannot
run out of fuel; in particular `dfsBound` is always enough for one
`DFS(start)` call on a closed edge index. -/
theorem dfsLoop_ne_none (E : List (V × List V)) (lo circ : Bool)
    (hcl : ∀ p ∈ E, ∀ m ∈ p.2, m ∈ E.map Prod.fst) :
    ∀ fuel (todo : List (Frame V)) inCP cP visited result,
    (∀ fr ∈ todo, fr.node ∈ E.map Prod.fst) →
    ucount E visited inCP * (esum E + 2) + todo.length + 1 ≤ fuel →
    ¬ dfsLoop E lo circ fuel todo inCP cP visited result = none := by
  intro fuel
  induction fuel with
  | zero =>
    intro todo inCP cP visited result _ hfuel
    omega
  | succ fuel ih =>
    intro todo inCP cP visited result hfr hfuel
    match todo with
    | [] =>
      rw [dfsLoop_nil]
      simp
    | ⟨n, pr⟩ :: rest =>
      have hn : n ∈ E.map Prod.fst := hfr _ (List.mem_cons_self _ _)
      have hrest : ∀ fr ∈ rest, fr.node ∈ E.map Prod.fst :=
        fun fr hfr' => hfr fr (List.mem_cons_of_mem _ hfr')
      cases pr with
      | false =>
        rw [dfsLoop_cons_false]
        split_ifs with h1 h2 h3
        · refine ih rest inCP cP visited result hrest ?_
          simp only [List.length_cons] at hfuel
          omega
        · refine ih rest inCP cP visited result hrest ?_
          simp only [List.length_cons] at hfuel
          omega
        · simp
        · set ch := mapGetD E n [] with hch
          refine ih _ _ _ _ _ ?_ ?_
          · intro fr hfr'
            rcases List.mem_append.mp hfr' with hfr' | hfr'
            · rcases List.mem_map.mp hfr' with ⟨m, hm, rfl⟩
              exact mapGetD_closed E hcl n m hm
            · rcases List.mem_cons.mp hfr' with rfl | hfr'
              · exact hn
              · exact hrest _ hfr'
          · have hdec : ucount E visited (n :: inCP) + 1 ≤ ucount E visited inCP :=
              ucount_flip E hn h1 h2
            have hclen : ch.length ≤ esum E := hch ▸ mapGetD_length_le_esum E n
            have hmul : (ucount E visited (n :: inCP) + 1) * (esum E + 2) ≤
                ucount E visited inCP * (esum E + 2) :=
              Nat.mul_le_mul_right _ hdec
            rw [Nat.add_mul, Nat.one_mul] at hmul
            simp only [List.length_append, List.length_map, List.length_cons] at hfuel ⊢
            omega
      | true =>
        rw [dfsLoop_cons_true]
        refine ih _ _ _ _ _ hrest ?_
        have hdec : ucount E (n :: visited) (inCP.erase n) ≤ ucount E visited inCP :=
          ucount_pop E visited inCP n
        have hmul : ucount E (n :: visited) (inCP.erase n) * (esum E + 2) ≤
            ucount E visited inCP * (esum E + 2) :=
          Nat.mul_le_mul_right _ hdec
        simp only [List.length_cons] at hfuel
        omega

/-! ## Stack-shape invariant lemmas (acyclic runs) -/

theorem pFrames_eq_nil {fs : List (Frame V)} (h : ∀ fr ∈ fs, fr.processed = false) :
    pFrames fs = [] := by
  have := pFrames_append_unproc fs [] h
  simpa using this

theorem TodoInv.mono {E : List (V × List V)} {visited visited' : List V}
    {above : Option V} {todo : List (Frame V)} {ps : List V}
    (h : TodoInv E visited above todo ps)
    (hsub : ∀ x ∈ visited, x ∈ visited') :
    TodoInv E visited' above todo ps := by
  induction h with
  | base above fs hun => exact .base _ _ _ hun
  | cons above pend n rest ps dn hun hdec hdn hrest ih =>
    exact .cons _ _ _ _ _ _ _ hun hdec (fun m hm => hsub m (hdn m hm)) ih

theorem TodoInv.pframes {E : List (V × List V)} {visited : List V}
    {above : Option V} {todo : List (Frame V)} {ps : List V}
    (h : TodoInv E visited above todo ps) : pFrames todo = ps := by
  induction h with
  | base above fs hun => exact pFrames_eq_nil hun
  | cons above pend n rest ps dn hun hdec hdn hrest ih =>
    rw [pFrames_append_unproc _ _ hun, pFrames_proc_cons, ih]

/-- One-step inversion of the stack-shape invariant. -/
theorem TodoInv.inv_cons {E : List (V × List V)} {visited : List V}
    {above : Option V} {todo : List (Frame V)} {ps : List V}
    (h : TodoInv E visited above todo ps) :
    (ps = [] ∧ ∀ fr ∈ todo, fr.processed = false) ∨
    (∃ pend n rest dn ps', ps = n :: ps' ∧ todo = pend ++ ⟨n, true⟩ :: rest ∧
      (∀ fr ∈ pend, fr.processed = false) ∧
      mapGetD E n [] = dn ++ (above.toList ++ pend.map Frame.node) ∧
      (∀ m ∈ dn, m ∈ visited) ∧ TodoInv E visited (some n) rest ps') := by
  cases h with
  | base above fs hun => exact .inl ⟨rfl, hun⟩
  | cons above pend n rest ps dn hun hdec hdn hrest =>
    exact .inr ⟨pend, n, rest, dn, ps, rfl, rfl, hun, hdec, hdn, hrest⟩

theorem TodoInv.head_edge {E : List (V × List V)} {visited : List V} {c : V}
    {todo : List (Frame V)} {n₁ : V} {ps₂ : List V}
    (h : TodoInv E visited (some c) todo (n₁ :: ps₂)) : edgeRel E n₁ c := by
  rcases h.inv_cons with ⟨hps, _⟩ | ⟨pend, n₀, rest₀, dn, ps₀, hps, htodo, hun, hdec, hdn, _⟩
  · cases hps
  · obtain rfl : n₀ = n₁ := by
      injection hps with h1 _
      exact h1.symm
    rw [edgeRel, hdec]
    simp

theorem TodoInv.reach {E : List (V × List V)} {visited : List V}
    {above : Option V} {todo : List (Frame V)} {ps : List V}
    (h : TodoInv E visited above todo ps) :
    ∀ x ∈ ps, ∀ n₀ ps', ps = n₀ :: ps' →
      (x = n₀ ∨ Relation.TransGen (edgeRel E) x n₀) := by
  induction h with
  | base above fs hun =>
    intro x hx
    simp at hx
  | cons above pend n rest ps dn hun hdec hdn hrest ih =>
    intro x hx n₀ ps' heq
    injection heq with h1 h2
    subst h1
    subst h2
    rcases List.mem_cons.mp hx with rfl | hx'
    · exact .inl rfl
    · rcases hq : ps with _ | ⟨n₁, ps₂⟩
      · rw [hq] at hx'
        simp at hx'
      · have hedge : edgeRel E n₁ n := (hq ▸ hrest).head_edge
        rcases ih x hx' n₁ ps₂ hq with rfl | htr
        · exact .inr (.single hedge)
        · exact .inr (.tail htr hedge)

theorem TodoInv.head_unproc_edge {E : List (V × List V)} {visited : List V}
    {m n₀ : V} {rest : List (Frame V)} {ps' : List V}
    (h : TodoInv E visited none (⟨m, false⟩ :: rest) (n₀ :: ps')) :
    edgeRel E n₀ m := by
  rcases h.inv_cons with ⟨hps, _⟩ | ⟨pend, n₁, rest₁, dn, ps₁, hps, htodo, hun, hdec, hdn, _⟩
  · cases hps
  · injection hps with h1 h2
    subst h1
    subst h2
    cases pend with
    | nil =>
      exfalso
      rw [List.nil_append] at htodo
      injection htodo with hf _
      exact Bool.noConfusion (congrArg Frame.processed hf)
    | cons f pend' =>
      rw [List.cons_append] at htodo
      injection htodo with hf _
      rw [edgeRel, hdec, ← hf]
      simp

theorem TodoInv.flip_expand {E : List (V × List V)} {visited : List V}
    {n : V} {rest : List (Frame V)} {ps : List V}
    (h : TodoInv E visited none (⟨n, false⟩ :: rest) ps) :
    TodoInv E visited none
      (((mapGetD E n []).map fun m => (⟨m, false⟩ : Frame V)) ++ ⟨n, true⟩ :: rest)
      (n :: ps) := by
  refine TodoInv.cons visited none _ n rest ps [] ?_ ?_ ?_ ?_
  · intro fr hfr
    rcases List.mem_map.mp hfr with ⟨x, _, rfl⟩
    rfl
  · simp only [Option.toList, List.nil_append, List.map_map]
    rw [show (Frame.node ∘ fun m => (⟨m, false⟩ : Frame V)) = id from rfl, List.map_id]
  · intro m hm
    simp at hm
  · rcases h.inv_cons with ⟨hps, hun⟩ | ⟨pend, n₀, rest₀, dn, ps₀, hps, htodo, hun, hdec, hdn, hrest⟩
    · subst hps
      exact .base _ _ _ (fun fr hfr => hun fr (List.mem_cons_of_mem _ hfr))
    · subst hps
      cases pend with
      | nil =>
        exfalso
        rw [List.nil_append] at htodo
        injection htodo with hf _
        exact Bool.noConfusion (congrArg Frame.processed hf)
      | cons f pend' =>
        rw [List.cons_append] at htodo
        injection htodo with hf hrest'
        subst hrest'
        refine TodoInv.cons visited (some n) pend' n₀ rest₀ ps₀ dn
          (fun fr hfr => hun fr (List.mem_cons_of_mem _ hfr)) ?_ hdn hrest
        rw [hdec, ← hf]
        simp

theorem TodoInv.skip {E : List (V × List V)} {visited : List V}
    {m : V} {rest : List (Frame V)} {ps : List V}
    (h : TodoInv E visited none (⟨m, false⟩ :: rest) ps) (hm : m ∈ visited) :
    TodoInv E visited none rest ps := by
  rcases h.inv_cons with ⟨hps, hun⟩ | ⟨pend, n₀, rest₀, dn, ps₀, hps, htodo, hun, hdec, hdn, hrest⟩
  · subst hps
    exact .base _ _ _ (fun fr hfr => hun fr (List.mem_cons_of_mem _ hfr))
  · subst hps
    cases pend with
    | nil =>
      exfalso
      rw [List.nil_append] at htodo
      injection htodo with hf _
      exact Bool.noConfusion (congrArg Frame.processed hf)
    | cons f pend' =>
      rw [List.cons_append] at htodo
      injection htodo with hf hrest'
      subst hrest'
      refine TodoInv.cons visited none pend' n₀ rest₀ ps₀ (dn ++ [m])
        (fun fr hfr => hun fr (List.mem_cons_of_mem _ hfr)) ?_ ?_ hrest
      · rw [hdec, ← hf]
        simp
      · intro x hx
        rcases List.mem_append.mp hx with hx | hx
        · exact hdn x hx
        · rw [List.mem_singleton.mp hx]
          exact hm

/-- Downgrade the invariant one level once the in-flight child `n` has become
fully visited. -/
theorem TodoInv.above_done {E : List (V × List V)} {visited visited' : List V}
    {n : V} {todo : List (Frame V)} {ps : List V}
    (h : TodoInv E visited (some n) todo ps)
    (hn : n ∈ visited') (hsub : ∀ x ∈ visited, x ∈ visited') :
    TodoInv E visited' none todo ps := by
  rcases h.inv_cons with ⟨hps, hun⟩ | ⟨pend, n₀, rest₀, dn, ps₀, hps, htodo, hun, hdec, hdn, hrest⟩
  · subst hps
    exact .base _ _ _ hun
  · subst hps
    subst htodo
    refine TodoInv.cons visited' none pend n₀ rest₀ ps₀ (dn ++ [n]) hun ?_ ?_
      (hrest.mono hsub)
    · rw [hdec]
      simp
    · intro x hx
      rcases List.mem_append.mp hx with hx | hx
      · exact hsub x (hdn x hx)
      · rw [List.mem_singleton.mp hx]
        exact hn

theorem TodoInv.pop {E : List (V × List V)} {visited : List V}
    {n : V} {rest : List (Frame V)} {ps : List V}
    (h : TodoInv E visited none (⟨n, true⟩ :: rest) ps) :
    ∃ ps', ps = n :: ps' ∧ (∀ m ∈ mapGetD E n [], m ∈ visited) ∧
      TodoInv E (n :: visited) none rest ps' := by
  rcases h.inv_cons with ⟨hps, hun⟩ | ⟨pend, n₀, rest₀, dn, ps₀, hps, htodo, hun, hdec, hdn, hrest⟩
  · exact absurd (hun _ (List.mem_cons_self _ _)) (by simp)
  · cases pend with
    | nil =>
      rw [List.nil_append] at htodo
      injection htodo with hf hrest'
      obtain rfl : n₀ = n := (congrArg Frame.node hf).symm
      subst hrest'
      refine ⟨ps₀, hps, ?_, ?_⟩
      · intro m hm
        rw [hdec] at hm
        simp only [Option.toList, List.map_nil, List.append_nil] at hm
        exact hdn m (by simpa using hm)
      · exact hrest.above_done (List.mem_cons_self _ _)
          (fun x hx => List.mem_cons_of_mem _ hx)
    | cons f pend' =>
      exfalso
      rw [List.cons_append] at htodo
      injection htodo with hf _
      have := hun f (List.mem_cons_self _ _)
      rw [← hf] at this
      exact Bool.noConfusion this

/-- Appending a node whose relation targets are all already present preserves
topological validity. -/
theorem topoOK_append (E : List (V × List V)) {result : List V} {n : V}
    (ht : TopoOK E result) (hsub : ∀ m ∈ mapGetD E n [], m ∈ result) :
    TopoOK E (result ++ [n]) := by
  intro j a hj m hm
  rcases lt_trichotomy j result.length with hlt | heq | hgt
  · rw [List.get?_append hlt] at hj
    obtain ⟨i, hi, hgi⟩ := ht j a hj m hm
    refine ⟨i, hi, ?_⟩
    rw [List.get?_append (lt_trans hi hlt)]
    exact hgi
  · subst heq
    obtain rfl : a = n := by
      rw [List.get?_append_right (le_refl _)] at hj
      simp at hj
      exact hj.symm
    obtain ⟨i, hgi⟩ := List.mem_iff_get?.mp (hsub m hm)
    have hil : i < result.length := by
      by_contra hcon
      rw [List.get?_eq_none.mpr (Nat.le_of_not_lt hcon)] at hgi
      cases hgi
    refine ⟨i, hil, ?_⟩
    rw [List.get?_append hil]
    exact hgi
  · exfalso
    rw [List.get?_eq_none.mpr (by simp; omega)] at hj
    cases hj

/-- Main correctness of the loop on acyclic edge indices with
`leavesOnly = false`: it cannot throw, and it preserves closedness of the
visited set, result–visited agreement, duplicate-freeness and topological
validity of the result. -/
theorem dfsLoop_acyclic (E : List (V × List V)) (circ : Bool) (hacyc : Acyclic E) :
    ∀ fuel (todo : List (Frame V)) inCP cP visited result out,
    StackInv todo inCP cP visited →
    TodoInv E visited none todo (pFrames todo) →
    VisClosed E visited →
    (∀ x, x ∈ result ↔ x ∈ visited) → result.Nodup → TopoOK E result →
    dfsLoop E false circ fuel todo inCP cP visited result = some out →
    ∃ visited' result', out = .ok (visited', result') ∧
      (∀ x ∈ visited, x ∈ visited') ∧ (∀ x, x ∈ result' ↔ x ∈ visited') ∧
      result'.Nodup ∧ TopoOK E result' ∧ VisClosed E visited' ∧
      ∃ tl, result' = result ++ tl := by
  intro fuel
  induction fuel with
  | zero =>
    intro todo inCP cP visited result out _ _ _ _ _ _ h
    simp [dfsLoop_zero] at h
  | succ fuel ih =>
    intro todo inCP cP visited result out hinv htodo hvc hres hndr htopo h
    match todo with
    | [] =>
      rw [dfsLoop_nil] at h
      refine ⟨visited, result, ?_, fun x hx => hx, hres, hndr, htopo, hvc, [], by simp⟩
      cases h
      rfl
    | ⟨n, pr⟩ :: rest =>
      cases pr with
      | false =>
        rw [dfsLoop_cons_false] at h
        split_ifs at h with h1 h2 h3
        · have hskip := htodo.skip h1
          rw [pFrames_unproc_cons] at hskip
          exact ih _ _ _ _ _ _ hinv.pop_unproc hskip hvc hres hndr htopo h
        · -- the node is on the current path: contradicts acyclicity
          exfalso
          have hmem : n ∈ pFrames (⟨n, false⟩ :: rest) := (hinv.hin n).mp h2
          rw [pFrames_unproc_cons] at hmem
          have hps : pFrames (⟨n, false⟩ :: rest) = pFrames rest :=
            pFrames_unproc_cons n rest
          rcases hq : pFrames rest with _ | ⟨n₀, ps'⟩
          · rw [hq] at hmem
            simp at hmem
          · have htodo' : TodoInv E visited none (⟨n, false⟩ :: rest) (n₀ :: ps') := by
              rw [← hq, ← hps]
              exact htodo
            have hedge : edgeRel E n₀ n := htodo'.head_unproc_edge
            rcases htodo'.reach n (hq ▸ hmem) n₀ ps' rfl with rfl | htr
            · exact hacyc n (.single hedge)
            · exact hacyc n (.tail htr hedge)
        · -- same contradiction in non-tolerant mode (h is an error, but we
          -- already know the path membership is impossible)
          exfalso
          have hmem : n ∈ pFrames (⟨n, false⟩ :: rest) := (hinv.hin n).mp h2
          rw [pFrames_unproc_cons] at hmem
          have hps : pFrames (⟨n, false⟩ :: rest) = pFrames rest :=
            pFrames_unproc_cons n rest
          rcases hq : pFrames rest with _ | ⟨n₀, ps'⟩
          · rw [hq] at hmem
            simp at hmem
          · have htodo' : TodoInv E visited none (⟨n, false⟩ :: rest) (n₀ :: ps') := by
              rw [← hq, ← hps]
              exact htodo
            have hedge : edgeRel E n₀ n := htodo'.head_unproc_edge
            rcases htodo'.reach n (hq ▸ hmem) n₀ ps' rfl with rfl | htr
            · exact hacyc n (.single hedge)
            · exact hacyc n (.tail htr hedge)
        · -- first visit: expand the node
          have htodo' := htodo.flip_expand
          have hpf : pFrames (((mapGetD E n []).map fun m => (⟨m, false⟩ : Frame V)) ++
              ⟨n, true⟩ :: rest) = n :: pFrames rest := by
            rw [pFrames_append_unproc, pFrames_proc_cons]
            intro fr hfr
            rcases List.mem_map.mp hfr with ⟨x, _, rfl⟩
            rfl
          refine ih _ _ _ _ _ _ (hinv.flip h2 h1 _) ?_ hvc hres hndr htopo h
          rw [hpf, ← pFrames_unproc_cons n rest]
          exact htodo'
      | true =>
        rw [dfsLoop_cons_true] at h
        rw [if_pos (.inl rfl)] at h
        obtain ⟨hinv', hcp', hn_in, hn_vis, hn_pf⟩ := hinv.pop_proc
        have hpf : pFrames (⟨n, true⟩ :: rest) = n :: pFrames rest :=
          pFrames_proc_cons n rest
        obtain ⟨ps', hps, hchv, htodo'⟩ := htodo.pop
        obtain rfl : ps' = pFrames rest := by
          rw [hpf] at hps
          injection hps with _ h2
          exact h2.symm
        have hn_res : ¬ n ∈ result := fun hc => hn_vis ((hres n).mp hc)
        have hvc' : VisClosed E (n :: visited) := by
          intro x hx m hm
          rcases List.mem_cons.mp hx with rfl | hx'
          · exact List.mem_cons_of_mem _ (hchv m hm)
          · exact List.mem_cons_of_mem _ (hvc x hx' m hm)
        have hres' : ∀ x, x ∈ result ++ [n] ↔ x ∈ n :: visited := by
          intro x
          simp only [List.mem_append, List.mem_singleton, List.mem_cons, hres x]
          tauto
        have hndr' : (result ++ [n]).Nodup := by
          rw [List.nodup_append]
          exact ⟨hndr, List.nodup_singleton n, by simpa using hn_res⟩
        have htopo' : TopoOK E (result ++ [n]) :=
          topoOK_append E htopo (fun m hm => (hres m).mpr (hchv m hm))
        obtain ⟨v', r', hout, m1, m2, m3, m4, m5, tl, htl⟩ :=
          ih _ _ _ _ _ _ hinv' htodo' hvc' hres' hndr' htopo' h
        refine ⟨v', r', hout, ?_, m2, m3, m4, m5, n :: tl, by simp [htl]⟩
        intro x hx
        exact m1 x (List.mem_cons_of_mem _ hx)

/-! ## Lifting the loop lemmas to `DFS(start)` and to runs over start lists -/

theorem runDFS_ok_facts (E : List (V × List V)) (circ : Bool) (fuel : Nat)
    (st : List V × List V) (start : V) (visited' result' : List V)
    (hres : ∀ x, x ∈ st.2 ↔ x ∈ st.1) (hndr : st.2.Nodup)
    (h : runDFS E false circ fuel st start = some (.ok (visited', result'))) :
    (∀ x, x ∈ result' ↔ x ∈ visited') ∧ result'.Nodup ∧
    (∀ x ∈ st.1, x ∈ visited') ∧ start ∈ visited' ∧ ∃ tl, result' = st.2 ++ tl := by
  rw [runDFS] at h
  split_ifs at h with h0
  · obtain ⟨h1, h2⟩ : st.1 = visited' ∧ st.2 = result' := by
      cases h
      exact ⟨rfl, rfl⟩
    subst h1
    subst h2
    exact ⟨hres, hndr, fun x hx => hx, h0, [], by simp⟩
  · obtain ⟨r1, r2, r3, r4, r5, r6⟩ :=
      dfsLoop_ok_facts E circ fuel _ _ _ _ _ _ _ (stackInv_start start st.1) hres hndr h
    exact ⟨r1, r2, r3, r4 _ (List.mem_cons_self _ _), r6⟩

theorem runDFS_ne_none (E : List (V × List V)) (lo circ : Bool)
    (hcl : ∀ p ∈ E, ∀ m ∈ p.2, m ∈ E.map Prod.fst)
    (st : List V × List V) (start : V) (hstart : start ∈ E.map Prod.fst) :
    ¬ runDFS E lo circ (dfsBound E) st start = none := by
  rw [runDFS]
  split_ifs with h0
  · simp
  · refine dfsLoop_ne_none E lo circ hcl _ _ _ _ _ _ ?_ ?_
    · intro fr hfr
      rcases List.mem_cons.mp hfr with rfl | hfr
      · exact hstart
      · simp at hfr
    · have hu : ucount E st.1 [] ≤ E.length := ucount_le_length E st.1 []
      have hmul : ucount E st.1 [] * (esum E + 2) ≤ E.length * (esum E + 2) :=
        Nat.mul_le_mul_right _ hu
      rw [dfsBound]
      simp only [List.length_cons, List.length_nil]
      omega

theorem runDFS_error_shape (E : List (V × List V)) (lo circ : Bool) (fuel : Nat)
    (st : List V × List V) (start : V) (e : DepErr V)
    (h : runDFS E lo circ fuel st start = some (.error e)) :
    ∃ cp m, e = .cycle (cp ++ [m]) ∧ m ∈ cp := by
  rw [runDFS] at h
  split_ifs at h with h0
  · cases h
  · exact dfsLoop_error_shape E lo circ fuel _ _ _ _ _ _ (stackInv_start start st.1) h

theorem runDFS_circ_no_error (E : List (V × List V)) (lo : Bool) (fuel : Nat)
    (st : List V × List V) (start : V) (e : DepErr V) :
    ¬ runDFS E lo true fuel st start = some (.error e) := by
  rw [runDFS]
  split_ifs with h0
  · simp
  · exact dfsLoop_circ_no_error E lo fuel _ _ _ _ _ e

theorem runDFS_acyclic (E : List (V × List V)) (circ : Bool) (hacyc : Acyclic E)
    (fuel : Nat) (st : List V × List V) (start : V)
    (out : Except (DepErr V) (List V × List V))
    (hvc : VisClosed E st.1) (hres : ∀ x, x ∈ st.2 ↔ x ∈ st.1)
    (hndr : st.2.Nodup) (htopo : TopoOK E st.2)
    (h : runDFS E false circ fuel st start = some out) :
    ∃ visited' result', out = .ok (visited', result') ∧
      (∀ x ∈ st.1, x ∈ visited') ∧ (∀ x, x ∈ result' ↔ x ∈ visited') ∧
      result'.Nodup ∧ TopoOK E result' ∧ VisClosed E visited' ∧
      ∃ tl, result' = st.2 ++ tl := by
  rw [runDFS] at h
  split_ifs at h with h0
  · refine ⟨st.1, st.2, ?_, fun x hx => hx, hres, hndr, htopo, hvc, [], by simp⟩
    cases h
    rfl
  · refine dfsLoop_acyclic E circ hacyc fuel _ _ _ _ _ _ (stackInv_start start st.1)
      ?_ hvc hres hndr htopo h
    rw [pFrames_unproc_cons]
    refine TodoInv.base _ _ _ ?_
    intro fr hfr
    rw [List.mem_singleton] at hfr
    subst hfr
    rfl

theorem runDFSAll_ok_facts (E : List (V × List V)) (circ : Bool) (fuel : Nat) :
    ∀ (starts : List V) (st : List V × List V) (visited' result' : List V),
    (∀ x, x ∈ st.2 ↔ x ∈ st.1) → st.2.Nodup →
    runDFSAll E false circ fuel st starts = some (.ok (visited', result')) →
    (∀ x, x ∈ result' ↔ x ∈ visited') ∧ result'.Nodup ∧
    (∀ x ∈ st.1, x ∈ visited') ∧ (∀ s ∈ starts, s ∈ visited') ∧
    ∃ tl, result' = st.2 ++ tl := by
  intro starts
  induction starts with
  | nil =>
    intro st visited' result' hres hndr h
    rw [runDFSAll] at h
    obtain ⟨h1, h2⟩ : st.1 = visited' ∧ st.2 = result' := by
      cases h
      exact ⟨rfl, rfl⟩
    subst h1
    subst h2
    exact ⟨hres, hndr, fun x hx => hx, by simp, [], by simp⟩
  | cons s starts ihs =>
    intro st visited' result' hres hndr h
    rw [runDFSAll] at h
    match hrun : runDFS E false circ fuel st s with
    | none => rw [hrun] at h; cases h
    | some (.error e) => rw [hrun] at h; cases h
    | some (.ok st') =>
      rw [hrun] at h
      obtain ⟨r1, r2, r3, r4, tl₁, htl₁⟩ :=
        runDFS_ok_facts E circ fuel st s st'.1 st'.2 hres hndr (by
          cases st'
          exact hrun)
      obtain ⟨q1, q2, q3, q4, tl₂, htl₂⟩ := ihs st' visited' result' r1 r2 h
      refine ⟨q1, q2, fun x hx => q3 x (r3 x hx), ?_, ?_⟩
      · intro x hx
        rcases List.mem_cons.mp hx with rfl | hx'
        · exact q3 x r4
        · exact q4 x hx'
      · exact ⟨tl₁ ++ tl₂, by rw [htl₂, htl₁, List.append_assoc]⟩

theorem runDFSAll_ne_none (E : List (V × List V)) (lo circ : Bool)
    (hcl : ∀ p ∈ E, ∀ m ∈ p.2, m ∈ E.map Prod.fst) :
    ∀ (starts : List V) (st : List V × List V),
    (∀ s ∈ starts, s ∈ E.map Prod.fst) →
    ¬ runDFSAll E lo circ (dfsBound E) st starts = none := by
  intro starts
  induction starts with
  | nil =>
    intro st _ h
    rw [runDFSAll] at h
    cases h
  | cons s starts ihs =>
    intro st hs h
    rw [runDFSAll] at h
    match hrun : runDFS E lo circ (dfsBound E) st s with
    | none =>
      exact runDFS_ne_none E lo circ hcl st s (hs s (List.mem_cons_self _ _)) hrun
    | some (.error e) => rw [hrun] at h; cases h
    | some (.ok st') =>
      rw [hrun] at h
      exact ihs st' (fun x hx => hs x (List.mem_cons_of_mem _ hx)) h

theorem runDFSAll_error_shape (E : List (V × List V)) (lo circ : Bool) (fuel : Nat) :
    ∀ (starts : List V) (st : List V × List V) (e : DepErr V),
    runDFSAll E lo circ fuel st starts = some (.error e) →
    ∃ cp m, e = .cycle (cp ++ [m]) ∧ m ∈ cp := by
  intro starts
  induction starts with
  | nil =>
    intro st e h
    rw [runDFSAll] at h
    cases h
  | cons s starts ihs =>
    intro st e h
    rw [runDFSAll] at h
    match hrun : runDFS E lo circ fuel st s with
    | none => rw [hrun] at h; cases h
    | some (.error e') =>
      rw [hrun] at h
      obtain rfl : e' = e := by
        cases h
        rfl
      exact runDFS_error_shape E lo circ fuel st s e' hrun
    | some (.ok st') =>
      rw [hrun] at h
      exact ihs st' e h

theorem runDFSAll_circ_no_error (E : List (V × List V)) (lo : Bool) (fuel : Nat) :
    ∀ (starts : List V) (st : List V × List V) (e : DepErr V),
    ¬ runDFSAll E lo true fuel st starts = some (.error e) := by
  intro starts
  induction starts with
  | nil =>
    intro st e h
    rw [runDFSAll] at h
    cases h
  | cons s starts ihs =>
    intro st e h
    rw [runDFSAll] at h
    match hrun : runDFS E lo true fuel st s with
    | none => rw [hrun] at h; cases h
    | some (.error e') =>
      exact runDFS_circ_no_error E lo fuel st s e' hrun
    | some (.ok st') =>
      rw [hrun] at h
      exact ihs st' e h

theorem runDFSAll_acyclic (E : List (V × List V)) (circ : Bool) (hacyc : Acyclic E)
    (fuel : Nat) :
    ∀ (starts : List V) (st : List V × List V)
      (out : Except (DepErr V) (List V × List V)),
    VisClosed E st.1 → (∀ x, x ∈ st.2 ↔ x ∈ st.1) → st.2.Nodup → TopoOK E st.2 →
    runDFSAll E false circ fuel st starts = some out →
    ∃ visited' result', out = .ok (visited', result') ∧
      (∀ x, x ∈ result' ↔ x ∈ visited') ∧ result'.Nodup ∧ TopoOK E result' ∧
      VisClosed E visited' ∧ ∃ tl, result' = st.2 ++ tl := by
  intro starts
  induction starts with
  | nil =>
    intro st out hvc hres hndr htopo h
    rw [runDFSAll] at h
    refine ⟨st.1, st.2, ?_, hres, hndr, htopo, hvc, [], by simp⟩
    cases h
    rfl
  | cons s starts ihs =>
    intro st out hvc hres hndr htopo h
    rw [runDFSAll] at h
    match hrun : runDFS E false circ fuel st s with
    | none => rw [hrun] at h; cases h
    | some out₁ =>
      obtain ⟨v₁, r₁, hout₁, hmono, q2, q3, q4, q5, tl₁, htl₁⟩ :=
        runDFS_acyclic E circ hacyc fuel st s out₁ hvc hres hndr htopo hrun
      subst hout₁
      rw [hrun] at h
      obtain ⟨v₂, r₂, hout₂, w1, w2, w3, w4, tl₂, htl₂⟩ :=
        ihs (v₁, r₁) out q5 q2 q3 q4 h
      exact ⟨v₂, r₂, hout₂, w1, w2, w3, w4, tl₁ ++ tl₂,
        by rw [htl₂, htl₁, List.append_assoc]⟩

/-! ## Well-formedness accessors -/

theorem WF.out_keys {g : DepGraph V} (h : WF g) :
    g.outgoingEdges.map Prod.fst = g.nodes.map Prod.fst := h.1

theorem WF.in_keys {g : DepGraph V} (h : WF g) :
    g.incomingEdges.map Prod.fst = g.nodes.map Prod.fst := h.2.1

theorem WF.keys_nodup {g : DepGraph V} (h : WF g) :
    (g.nodes.map Prod.fst).Nodup := h.2.2.1

theorem WF.out_closed {g : DepGraph V} (h : WF g) :
    ∀ p ∈ g.outgoingEdges, ∀ m ∈ p.2, m ∈ g.outgoingEdges.map Prod.fst := by
  intro p hp m hm
  rw [h.1]
  exact (h.2.2.2.1 p hp).2 m hm

theorem WF.in_closed {g : DepGraph V} (h : WF g) :
    ∀ p ∈ g.incomingEdges, ∀ m ∈ p.2, m ∈ g.incomingEdges.map Prod.fst := by
  intro p hp m hm
  rw [h.2.1]
  exact (h.2.2.2.2.1 p hp).2 m hm

/-! ## Termination of the traversal-driving operations -/

theorem dependenciesOf_ne_none (g : DepGraph V) (h : WF g) (n : V) (lo : Bool) :
    ¬ g.dependenciesOf n lo = none := by
  rw [DepGraph.dependenciesOf]
  split_ifs with h0
  · have hstart : n ∈ g.outgoingEdges.map Prod.fst := by
      rw [h.out_keys]
      exact (hasNode_iff g n).mp h0
    match hrun : runDFS g.outgoingEdges lo g.circular
        (dfsBound g.outgoingEdges) ([], []) n with
    | none => exact absurd hrun (runDFS_ne_none _ _ _ h.out_closed _ _ hstart)
    | some (.error e) => simp
    | some (.ok st) => simp
  · simp

theorem dependantsOf_ne_none (g : DepGraph V) (h : WF g) (n : V) (lo : Bool) :
    ¬ g.dependantsOf n lo = none := by
  rw [DepGraph.dependantsOf]
  split_ifs with h0
  · have hstart : n ∈ g.incomingEdges.map Prod.fst := by
      rw [h.in_keys]
      exact (hasNode_iff g n).mp h0
    match hrun : runDFS g.incomingEdges lo g.circular
        (dfsBound g.incomingEdges) ([], []) n with
    | none => exact absurd hrun (runDFS_ne_none _ _ _ h.in_closed _ _ hstart)
    | some (.error e) => simp
    | some (.ok st) => simp
  · simp

theorem overallOrder_ne_none (g : DepGraph V) (h : WF g) (lo : Bool) :
    ¬ g.overallOrder lo = none := by
  have hkeys : ∀ s ∈ g.nodes.map Prod.fst, s ∈ g.outgoingEdges.map Prod.fst := by
    rw [h.out_keys]
    exact fun s hs => hs
  have hfil : ∀ (pr : V → Bool), ∀ s ∈ (g.nodes.map Prod.fst).filter pr,
      s ∈ g.outgoingEdges.map Prod.fst :=
    fun pr s hs => hkeys s (List.mem_of_mem_filter hs)
  simp only [DepGraph.overallOrder]
  split_ifs with hempty hc
  · simp
  · -- circular-tolerant: no sweep, entry phase, then the missing-nodes pass
    match hrun : runDFSAll g.outgoingEdges lo g.circular
        (dfsBound g.outgoingEdges) ([], [])
        ((g.nodes.map Prod.fst).filter fun n =>
          mapGetD g.incomingEdges n [] = []) with
    | none => exact absurd hrun (runDFSAll_ne_none _ _ _ h.out_closed _ _ (hfil _))
    | some (.error e) => simp
    | some (.ok st) =>
      obtain ⟨v₁, r₁⟩ := st
      dsimp only
      match hrun₂ : runDFSAll g.outgoingEdges lo g.circular
          (dfsBound g.outgoingEdges) (v₁, r₁)
          ((g.nodes.map Prod.fst).filter fun n => ¬ n ∈ r₁) with
      | none => exact absurd hrun₂ (runDFSAll_ne_none _ _ _ h.out_closed _ _ (hfil _))
      | some (.error e) => simp
      | some (.ok st₂) => simp
  · -- non-tolerant: the sweep over every key, then the entry phase
    match hrun₀ : runDFSAll g.outgoingEdges false g.circular
        (dfsBound g.outgoingEdges) ([], []) (g.nodes.map Prod.fst) with
    | none => exact absurd hrun₀ (runDFSAll_ne_none _ _ _ h.out_closed _ _ hkeys)
    | some (.error e) => simp
    | some (.ok st₀) =>
      dsimp only
      match hrun : runDFSAll g.outgoingEdges lo g.circular
          (dfsBound g.outgoingEdges) ([], [])
          ((g.nodes.map Prod.fst).filter fun n =>
            mapGetD g.incomingEdges n [] = []) with
      | none => exact absurd hrun (runDFSAll_ne_none _ _ _ h.out_closed _ _ (hfil _))
      | some (.error e) => simp
      | some (.ok st) => simp

/-- C9: on every well-formed graph, in both modes, the three traversal-driving
operations terminate (the fuel `dfsBound` provided to the iterative DFS is
never exhausted), cycles included. -/
theorem claim_C9 (g : DepGraph V) (h : WF g) (n : V) (lo : Bool) :
    ¬ g.dependenciesOf n lo = none ∧ ¬ g.dependantsOf n lo = none ∧
    ¬ g.overallOrder lo = none :=
  ⟨dependenciesOf_ne_none g h n lo, dependantsOf_ne_none g h n lo,
    overallOrder_ne_none g h lo⟩

/-- Witness for C9 on the concrete cyclic graph. -/
theorem claim_C9_witness :
    WF gCycle ∧
    (¬ gCycle.dependenciesOf "a" false = none ∧
     ¬ gCycle.dependantsOf "a" false = none ∧
     ¬ gCycle.overallOrder false = none) :=
  ⟨by decide, claim_C9 gCycle (by decide) "a" false⟩

/-! ## Shape of every thrown cycle path -/

theorem dependenciesOf_cycle_shape (g : DepGraph V) (n : V) (lo : Bool) (p : List V)
    (h : g.dependenciesOf n lo = some (.error (.cycle p))) :
    ∃ cp m, p = cp ++ [m] ∧ m ∈ cp := by
  rw [DepGraph.dependenciesOf] at h
  split_ifs at h with h0
  · cases hrun : runDFS g.outgoingEdges lo g.circular
        (dfsBound g.outgoingEdges) ([], []) n with
    | none =>
      rw [hrun] at h
      simp at h
    | some r =>
      cases r with
      | error e =>
        rw [hrun] at h
        simp only [Option.some.injEq, Except.error.injEq] at h
        obtain ⟨cp, m, hshape, hm⟩ :=
          runDFS_error_shape _ _ _ _ _ _ _ hrun
        rw [h] at hshape
        injection hshape with hp
        exact ⟨cp, m, hp, hm⟩
      | ok st =>
        rw [hrun] at h
        simp at h
  · simp at h

theorem dependantsOf_cycle_shape (g : DepGraph V) (n : V) (lo : Bool) (p : List V)
    (h : g.dependantsOf n lo = some (.error (.cycle p))) :
    ∃ cp m, p = cp ++ [m] ∧ m ∈ cp := by
  rw [DepGraph.dependantsOf] at h
  split_ifs at h with h0
  · cases hrun : runDFS g.incomingEdges lo g.circular
        (dfsBound g.incomingEdges) ([], []) n with
    | none =>
      rw [hrun] at h
      simp at h
    | some r =>
      cases r with
      | error e =>
        rw [hrun] at h
        simp only [Option.some.injEq, Except.error.injEq] at h
        obtain ⟨cp, m, hshape, hm⟩ :=
          runDFS_error_shape _ _ _ _ _ _ _ hrun
        rw [h] at hshape
        injection hshape with hp
        exact ⟨cp, m, hp, hm⟩
      | ok st =>
        rw [hrun] at h
        simp at h
  · simp at h

theorem overallOrder_cycle_shape (g : DepGraph V) (lo : Bool) (p : List V)
    (h : g.overallOrder lo = some (.error (.cycle p))) :
    ∃ cp m, p = cp ++ [m] ∧ m ∈ cp := by
  simp only [DepGraph.overallOrder] at h
  split_ifs at h with hempty hc
  · simp at h
  · -- circular-tolerant mode never throws at all
    exfalso
    cases hrun : runDFSAll g.outgoingEdges lo g.circular
        (dfsBound g.outgoingEdges) ([], [])
        ((g.nodes.map Prod.fst).filter fun n =>
          mapGetD g.incomingEdges n [] = []) with
    | none =>
      rw [hrun] at h
      simp at h
    | some r =>
      cases r with
      | error e =>
        rw [hc] at hrun
        exact runDFSAll_circ_no_error _ _ _ _ _ _ hrun
      | ok st =>
        obtain ⟨v₁, r₁⟩ := st
        rw [hrun] at h
        dsimp only at h
        cases hrun₂ : runDFSAll g.outgoingEdges lo g.circular
            (dfsBound g.outgoingEdges) (v₁, r₁)
            ((g.nodes.map Prod.fst).filter fun n => ¬ n ∈ r₁) with
        | none =>
          rw [hrun₂] at h
          simp at h
        | some r₂ =>
          cases r₂ with
          | error e =>
            rw [hc] at hrun₂
            exact runDFSAll_circ_no_error _ _ _ _ _ _ hrun₂
          | ok st₂ =>
            rw [hrun₂] at h
            simp at h
  · -- non-tolerant mode: the error comes from the sweep or the entry phase
    cases hrun₀ : runDFSAll g.outgoingEdges false g.circular
        (dfsBound g.outgoingEdges) ([], []) (g.nodes.map Prod.fst) with
    | none =>
      rw [hrun₀] at h
      simp at h
    | some r₀ =>
      cases r₀ with
      | error e =>
        rw [hrun₀] at h
        simp only [Option.some.injEq, Except.error.injEq] at h
        obtain ⟨cp, m, hshape, hm⟩ :=
          runDFSAll_error_shape _ _ _ _ _ _ _ hrun₀
        rw [h] at hshape
        injection hshape with hp
        exact ⟨cp, m, hp, hm⟩
      | ok st₀ =>
        rw [hrun₀] at h
        dsimp only at h
        cases hrun : runDFSAll g.outgoingEdges lo g.circular
            (dfsBound g.outgoingEdges) ([], [])
            ((g.nodes.map Prod.fst).filter fun n =>
              mapGetD g.incomingEdges n [] = []) with
        | none =>
          rw [hrun] at h
          simp at h
        | some r₁ =>
          cases r₁ with
          | error e =>
            rw [hrun] at h
            simp only [Option.some.injEq, Except.error.injEq] at h
            obtain ⟨cp, m, hshape, hm⟩ :=
              runDFSAll_error_shape _ _ _ _ _ _ _ hrun
            rw [h] at hshape
            injection hshape with hp
            exact ⟨cp, m, hp, hm⟩
          | ok st =>
            rw [hrun] at h
            simp at h

/-- C2 (amended): whenever `dependenciesOf`, `dependantsOf` or `overallOrder`
raises the cycle error, the carried path ends with a node identity that
already occurs earlier in the path (the identity closing the cycle), and the
error object's message is the path joined with the `" -> "` separator after
the `"Dependency Cycle Found: "` prefix; the path begins and ends with the
same identity only when the traversal start lies on the cycle itself. -/
theorem claim_C2_amended (g : DepGraph String) (n : String) (lo : Bool)
    (p : List String)
    (h : g.dependenciesOf n lo = some (.error (.cycle p)) ∨
         g.dependantsOf n lo = some (.error (.cycle p)) ∨
         g.overallOrder lo = some (.error (.cycle p))) :
    (∃ cp m, p = cp ++ [m] ∧ m ∈ cp) ∧
    (mkCycleError (fun s => s) p).cyclePath = p ∧
    (mkCycleError (fun s => s) p).message =
      "Dependency Cycle Found: " ++ joinSep " -> " p := by
  refine ⟨?_, rfl, by simp [mkCycleError]⟩
  rcases h with h | h | h
  · exact dependenciesOf_cycle_shape g n lo p h
  · exact dependantsOf_cycle_shape g n lo p h
  · exact overallOrder_cycle_shape g lo p h

/-- Witness for the amended C2, at the cycle path thrown by
`dependenciesOf('d')` on the concrete cycle graph. -/
theorem claim_C2_witness :
    (∃ cp m, (["d", "a", "b", "c", "a"] : List String) = cp ++ [m] ∧ m ∈ cp) ∧
    (mkCycleError (fun s => s) ["d", "a", "b", "c", "a"]).cyclePath =
      ["d", "a", "b", "c", "a"] ∧
    (mkCycleError (fun s => s) ["d", "a", "b", "c", "a"]).message =
      "Dependency Cycle Found: " ++ joinSep " -> " ["d", "a", "b", "c", "a"] :=
  claim_C2_amended gCycle "d" false _ (.inl (by decide))

/-! ## Overall order: circular-tolerant completeness and acyclic correctness -/

/-- C5: in circular-tolerant mode, `overallOrder()` with `leavesOnly`
disabled never raises the cycle error, and its result contains every
registered node identity exactly once — including nodes on cycles and nodes
of cyclic subgraphs with no entry node. -/
theorem claim_C5 (g : DepGraph V) (h : WF g) (hc : g.circular = true) :
    ∃ res, g.overallOrder false = some (.ok res) ∧
      ∀ k ∈ g.nodes.map Prod.fst, res.count k = 1 := by
  have hfil : ∀ (pr : V → Bool), ∀ s ∈ (g.nodes.map Prod.fst).filter pr,
      s ∈ g.outgoingEdges.map Prod.fst := by
    intro pr s hs
    rw [h.out_keys]
    exact List.mem_of_mem_filter hs
  simp only [DepGraph.overallOrder]
  by_cases hempty : (g.nodes.map Prod.fst).isEmpty = true
  · rw [if_pos hempty]
    refine ⟨[], rfl, ?_⟩
    intro k hk
    rw [List.isEmpty_iff] at hempty
    rw [hempty] at hk
    cases hk
  · rw [if_neg hempty, if_pos hc]
    match hrun : runDFSAll g.outgoingEdges false g.circular
        (dfsBound g.outgoingEdges) ([], [])
        ((g.nodes.map Prod.fst).filter fun n =>
          mapGetD g.incomingEdges n [] = []) with
    | none => exact absurd hrun (runDFSAll_ne_none _ _ _ h.out_closed _ _ (hfil _))
    | some (.error e) =>
      exfalso
      rw [hc] at hrun
      exact runDFSAll_circ_no_error _ _ _ _ _ _ hrun
    | some (.ok st) =>
      obtain ⟨v₁, r₁⟩ := st
      obtain ⟨q1, q2, _, _, tl₁, htl₁⟩ :=
        runDFSAll_ok_facts g.outgoingEdges g.circular (dfsBound g.outgoingEdges)
          _ ([], []) v₁ r₁ (by intro x; simp) (by simp) hrun
      dsimp only
      rw [if_pos hc]
      match hrun₂ : runDFSAll g.outgoingEdges false g.circular
          (dfsBound g.outgoingEdges) (v₁, r₁)
          ((g.nodes.map Prod.fst).filter fun n => ¬ n ∈ r₁) with
      | none => exact absurd hrun₂ (runDFSAll_ne_none _ _ _ h.out_closed _ _ (hfil _))
      | some (.error e) =>
        exfalso
        rw [hc] at hrun₂
        exact runDFSAll_circ_no_error _ _ _ _ _ _ hrun₂
      | some (.ok st₂) =>
        obtain ⟨v₂, r₂⟩ := st₂
        obtain ⟨w1, w2, w3, w4, tl₂, htl₂⟩ :=
          runDFSAll_ok_facts g.outgoingEdges g.circular (dfsBound g.outgoingEdges)
            _ (v₁, r₁) v₂ r₂ q1 q2 hrun₂
        refine ⟨r₂, by simp, ?_⟩
        intro k hk
        have hmem : k ∈ r₂ := by
          by_cases hk₁ : k ∈ r₁
          · rw [htl₂]
            exact List.mem_append_left _ hk₁
          · have hkm : k ∈ (g.nodes.map Prod.fst).filter fun n => ¬ n ∈ r₁ := by
              rw [List.mem_filter]
              exact ⟨hk, by simpa using hk₁⟩
            exact (w1 k).mpr (w4 k hkm)
        have hle : r₂.count k ≤ 1 := List.nodup_iff_count_le_one.mp w2 k
        have hpos : 0 < r₂.count k := List.count_pos_iff_mem.mpr hmem
        omega

/-- C3: on every well-formed acyclic graph, in either mode, `overallOrder()`
succeeds, and its result is a valid topological order: wherever an edge
source appears, the edge target appears at a strictly earlier position. -/
theorem claim_C3 (g : DepGraph V) (h : WF g) (hacyc : Acyclic g.outgoingEdges) :
    ∃ res, g.overallOrder false = some (.ok res) ∧
      ∀ a b, b ∈ mapGetD g.outgoingEdges a [] →
        ∀ j, res.get? j = some a → ∃ i, i < j ∧ res.get? i = some b := by
  have hfil : ∀ (pr : V → Bool), ∀ s ∈ (g.nodes.map Prod.fst).filter pr,
      s ∈ g.outgoingEdges.map Prod.fst := by
    intro pr s hs
    rw [h.out_keys]
    exact List.mem_of_mem_filter hs
  have hkeys : ∀ s ∈ g.nodes.map Prod.fst, s ∈ g.outgoingEdges.map Prod.fst := by
    rw [h.out_keys]
    exact fun s hs => hs
  have hvc0 : VisClosed g.outgoingEdges [] := by
    intro x hx
    cases hx
  have hres0 : ∀ x : V, x ∈ ([] : List V) ↔ x ∈ ([] : List V) := fun x => Iff.rfl
  have htopo0 : TopoOK g.outgoingEdges [] := by
    intro j a hj
    simp at hj
  simp only [DepGraph.overallOrder]
  by_cases hempty : (g.nodes.map Prod.fst).isEmpty = true
  · rw [if_pos hempty]
    refine ⟨[], rfl, ?_⟩
    intro a b _ j hj
    simp at hj
  · rw [if_neg hempty]
    by_cases hc : g.circular = true
    · rw [if_pos hc]
      match hrun : runDFSAll g.outgoingEdges false g.circular
          (dfsBound g.outgoingEdges) ([], [])
          ((g.nodes.map Prod.fst).filter fun n =>
            mapGetD g.incomingEdges n [] = []) with
      | none => exact absurd hrun (runDFSAll_ne_none _ _ _ h.out_closed _ _ (hfil _))
      | some out₁ =>
        obtain ⟨v₁, r₁, hout₁, q1, q2, q3, q4, tl₁, htl₁⟩ :=
          runDFSAll_acyclic g.outgoingEdges g.circular hacyc
            (dfsBound g.outgoingEdges) _ ([], []) out₁ hvc0 hres0 (by simp)
            htopo0 hrun
        subst hout₁
        dsimp only
        rw [if_pos hc]
        match hrun₂ : runDFSAll g.outgoingEdges false g.circular
            (dfsBound g.outgoingEdges) (v₁, r₁)
            ((g.nodes.map Prod.fst).filter fun n => ¬ n ∈ r₁) with
        | none => exact absurd hrun₂ (runDFSAll_ne_none _ _ _ h.out_closed _ _ (hfil _))
        | some out₂ =>
          obtain ⟨v₂, r₂, hout₂, w1, w2, w3, w4, tl₂, htl₂⟩ :=
            runDFSAll_acyclic g.outgoingEdges g.circular hacyc
              (dfsBound g.outgoingEdges) _ (v₁, r₁) out₂ q4 q1 q2 q3 hrun₂
          subst hout₂
          exact ⟨r₂, by simp, fun a b hb j hj => w3 j a hj b hb⟩
    · rw [if_neg hc]
      match hrun₀ : runDFSAll g.outgoingEdges false g.circular
          (dfsBound g.outgoingEdges) ([], []) (g.nodes.map Prod.fst) with
      | none => exact absurd hrun₀ (runDFSAll_ne_none _ _ _ h.out_closed _ _ hkeys)
      | some out₀ =>
        obtain ⟨v₀, r₀, hout₀, _, _, _, _, _, _⟩ :=
          runDFSAll_acyclic g.outgoingEdges g.circular hacyc
            (dfsBound g.outgoingEdges) _ ([], []) out₀ hvc0 hres0 (by simp)
            htopo0 hrun₀
        subst hout₀
        dsimp only
        match hrun : runDFSAll g.outgoingEdges false g.circular
            (dfsBound g.outgoingEdges) ([], [])
            ((g.nodes.map Prod.fst).filter fun n =>
              mapGetD g.incomingEdges n [] = []) with
        | none => exact absurd hrun (runDFSAll_ne_none _ _ _ h.out_closed _ _ (hfil _))
        | some out₁ =>
          obtain ⟨v₁, r₁, hout₁, q1, q2, q3, q4, tl₁, htl₁⟩ :=
            runDFSAll_acyclic g.outgoingEdges g.circular hacyc
              (dfsBound g.outgoingEdges) _ ([], []) out₁ hvc0 hres0 (by simp)
              htopo0 hrun
          subst hout₁
          dsimp only
          rw [if_neg hc]
          exact ⟨r₁, by simp, fun a b hb j hj => q3 j a hj b hb⟩

/-- A strictly decreasing rank certifies acyclicity of an edge index. -/
theorem acyclic_of_rank (E : List (V × List V)) (rank : V → Nat)
    (hr : ∀ a b, edgeRel E a b → rank b < rank a) : Acyclic E := by
  intro n hn
  have hlt : ∀ x y, Relation.TransGen (edgeRel E) x y → rank y < rank x := by
    intro x y hxy
    induction hxy with
    | single he => exact hr _ _ he
    | tail _ he ih => exact lt_trans (hr _ _ he) ih
  exact lt_irrefl _ (hlt n n hn)

/-- Witness for C3, on the concrete two-node graph with edge `a→b`. -/
theorem claim_C3_witness :
    WF gWit ∧
    (∃ res, gWit.overallOrder false = some (.ok res) ∧
      ∀ a b, b ∈ mapGetD gWit.outgoingEdges a [] →
        ∀ j, res.get? j = some a → ∃ i, i < j ∧ res.get? i = some b) := by
  refine ⟨by decide, claim_C3 gWit (by decide) ?_⟩
  refine acyclic_of_rank _ (fun s => if s = "a" then 1 else 0) ?_
  intro a b he
  rw [edgeRel] at he
  by_cases ha : a = "a"
  · subst ha
    have hev : mapGetD gWit.outgoingEdges "a" [] = ["b"] := by decide
    rw [hev] at he
    obtain rfl : b = "b" := List.mem_singleton.mp he
    decide
  · by_cases hb2 : a = "b"
    · subst hb2
      have hev : mapGetD gWit.outgoingEdges "b" [] = [] := by decide
      rw [hev] at he
      cases he
    · have hkeysWit : gWit.outgoingEdges.map Prod.fst = ["a", "b"] := by decide
      have hev : mapGet gWit.outgoingEdges a = none := by
        apply mapGet_eq_none
        rw [hkeysWit]
        intro hmem
        rcases List.mem_cons.mp hmem with h1 | h1
        · exact ha h1
        · exact hb2 (List.mem_singleton.mp h1)
      rw [mapGetD, hev] at he
      simp at he

/-- Witness for C5, on the concrete circular-tolerant cycle graph. -/
theorem claim_C5_witness :
    WF gCircular ∧
    (∃ res, gCircular.overallOrder false = some (.ok res) ∧
      ∀ k ∈ gCircular.nodes.map Prod.fst, res.count k = 1) :=
  ⟨by decide, claim_C5 gCircular (by decide) (by decide)⟩

/-! ## Claim theorems: concrete scenarios and simple frame effects -/

/-- C1 (counterexample): on the non-circular-tolerant graph with nodes
`a,b,c,d` (in that order) and edges `a→b, b→c, c→a, d→a`, `overallOrder()`
does NOT fail with the path `[d, a, b, c, a]` stated by the claim. -/
theorem claim_C1_counterexample :
    ¬ gCycle.overallOrder false =
      some (.error (.cycle ["d", "a", "b", "c", "a"])) := by decide

/-- C1 (amended): the cycle-detection sweep of `overallOrder` runs from every
node in registration order, so on that graph the DFS started at `a` discovers
the cycle first and the error carries exactly the path `[a, b, c, a]`. -/
theorem claim_C1_amended :
    gCycle.overallOrder false =
      some (.error (.cycle ["a", "b", "c", "a"])) := by decide

/-- C2 (counterexample): `dependenciesOf('d')` on the graph with edges
`a→b, b→c, c→a, d→a` throws the cycle path `[d, a, b, c, a]`, which does not
begin and end with the same node identity. -/
theorem claim_C2_counterexample :
    gCycle.dependenciesOf "d" false =
      some (.error (.cycle ["d", "a", "b", "c", "a"])) ∧
    (["d", "a", "b", "c", "a"] : List String).head? ≠
      (["d", "a", "b", "c", "a"] : List String).getLast? := by decide

/-- C6: re-adding an existing node identity, with either arity of `addNode`
and any payload, leaves the graph completely unchanged: payload, outgoing and
incoming edge sets included. -/
theorem claim_C6 (g : DepGraph V) (n d : V) (h : g.hasNode n = true) :
    g.addNode n d = g ∧ g.addNode1 n = g := by
  constructor
  · simp [DepGraph.addNode, h]
  · simp [DepGraph.addNode1, h]

/-- Witness for C6 on a concrete graph. -/
theorem claim_C6_witness :
    gWit.hasNode "a" = true ∧
    (gWit.addNode "a" "x" = gWit ∧ gWit.addNode1 "a" = gWit) :=
  ⟨by decide, claim_C6 gWit "a" "x" (by decide)⟩

/-- C8: on the graph with nodes `a,b,c,d` and edges added in the order
`a→d, a→b, b→c, d→b`, `dependenciesOf('a')` returns exactly `[c, b, d]` and
`dependantsOf('c')` returns exactly `[a, d, b]`; neither result contains the
queried node itself. -/
theorem claim_C8 :
    gOrd.dependenciesOf "a" false = some (.ok ["c", "b", "d"]) ∧
    gOrd.dependantsOf "c" false = some (.ok ["a", "d", "b"]) ∧
    ¬ "a" ∈ (["c", "b", "d"] : List String) ∧
    ¬ "c" ∈ (["a", "d", "b"] : List String) := by decide

/-- C10: for an unregistered identity, the two-argument form of `addNode`
stores the supplied payload even when it is an `undefined`-like value, while
the payload defaults to the identity itself only in the one-argument form. -/
theorem claim_C10 (g : DepGraph V) (n u : V) (h : ¬ g.hasNode n = true) :
    (g.addNode n u).getNodeData n = .ok u ∧
    (g.addNode1 n).getNodeData n = .ok n := by
  constructor
  · have hset : mapGet (mapSet g.nodes n u) n = some u := mapGet_mapSet_self _ _ _
    rw [DepGraph.addNode, if_neg h]
    simp [DepGraph.getNodeData, DepGraph.hasNode, hset, mapGetD]
  · have hset : mapGet (mapSet g.nodes n n) n = some n := mapGet_mapSet_self _ _ _
    rw [DepGraph.addNode1, if_neg h]
    simp [DepGraph.getNodeData, DepGraph.hasNode, hset, mapGetD]

/-- Witness for C10 over `Option Nat` node values, with `none` playing the
role of a JS `undefined` payload. -/
theorem claim_C10_witness :
    (¬ (mkDepGraph false : DepGraph (Option Nat)).hasNode (some 0) = true) ∧
    (((mkDepGraph false : DepGraph (Option Nat)).addNode (some 0) none).getNodeData
        (some 0) = .ok none ∧
     ((mkDepGraph false : DepGraph (Option Nat)).addNode1 (some 0)).getNodeData
        (some 0) = .ok (some 0)) :=
  ⟨by decide, claim_C10 _ _ _ (by decide)⟩

/-! ## Preservation of the graph invariants by every mutation -/

theorem mapGet_append_left_of_mem {β : Type} (m₁ m₂ : List (V × β)) (k : V)
    (hk : k ∈ m₁.map Prod.fst) : mapGet (m₁ ++ m₂) k = mapGet m₁ k := by
  rw [mapGet_append]
  cases hg : mapGet m₁ k with
  | none =>
    exfalso
    have := (mapGet_isSome_iff m₁ k).mpr hk
    rw [hg] at this
    cases this
  | some v => rfl

theorem mapGet_append_right_of_not_mem {β : Type} (m₁ m₂ : List (V × β)) (k : V)
    (hk : ¬ k ∈ m₁.map Prod.fst) : mapGet (m₁ ++ m₂) k = mapGet m₂ k := by
  rw [mapGet_append, mapGet_eq_none m₁ k hk]

theorem map_fst_map_value {β γ : Type} (m : List (V × β)) (f : β → γ) :
    (m.map (fun p => (p.1, f p.2))).map Prod.fst = m.map Prod.fst := by
  rw [List.map_map]
  rfl

/-- Auxiliary lookup lemmas at the `getD` level. -/
theorem mapGetD_append_left {β : Type} (m₁ m₂ : List (V × β)) (k : V) (dflt : β)
    (hk : k ∈ m₁.map Prod.fst) :
    mapGetD (m₁ ++ m₂) k dflt = mapGetD m₁ k dflt := by
  unfold mapGetD
  rw [mapGet_append_left_of_mem _ _ _ hk]

theorem mapGetD_append_right {β : Type} (m₁ m₂ : List (V × β)) (k : V) (dflt : β)
    (hk : ¬ k ∈ m₁.map Prod.fst) :
    mapGetD (m₁ ++ m₂) k dflt = mapGetD m₂ k dflt := by
  unfold mapGetD
  rw [mapGet_append_right_of_not_mem _ _ _ hk]

theorem mem_mapGetD {E : List (V × List V)} {a m : V}
    (hm : m ∈ mapGetD E a []) : ∃ l, mapGet E a = some l ∧ m ∈ l := by
  unfold mapGetD at hm
  cases hg : mapGet E a with
  | none =>
    rw [hg] at hm
    simp at hm
  | some l =>
    rw [hg] at hm
    exact ⟨l, rfl, by simpa using hm⟩

/-- Rebuilding an association list by looking up each of its own keys in
order reproduces it (used for `clone`). -/
theorem rebuild_eq {β : Type} :
    ∀ (ks : List (V × V)) (E : List (V × β)) (dflt : β),
    E.map Prod.fst = ks.map Prod.fst → (ks.map Prod.fst).Nodup →
    ks.map (fun p => (p.1, mapGetD E p.1 dflt)) = E := by
  intro ks
  induction ks with
  | nil =>
    intro E dflt hkeys _
    simp only [List.map_nil] at hkeys ⊢
    exact (List.map_eq_nil.mp hkeys).symm ▸ rfl
  | cons q ks ih =>
    intro E dflt hkeys hnd
    obtain ⟨k, d⟩ := q
    match E with
    | [] => simp at hkeys
    | (k₂, val) :: E' =>
      simp only [List.map_cons] at hkeys hnd
      injection hkeys with hk hks
      subst hk
      rw [List.nodup_cons] at hnd
      have hhead : mapGetD ((k₂, val) :: E') k₂ dflt = val := by
        simp [mapGetD, mapGet]
      have htail : ks.map (fun p => (p.1, mapGetD ((k₂, val) :: E') p.1 dflt)) =
          ks.map (fun p => (p.1, mapGetD E' p.1 dflt)) := by
        apply List.map_congr_left
        intro p hp
        have hpk : ¬ k₂ = p.1 := by
          intro hc
          exact hnd.1 (hc ▸ List.mem_map.mpr ⟨p, hp, rfl⟩)
        simp [mapGetD, mapGet, hpk]
      simp only [List.map_cons, hhead, htail, ih E' dflt hks hnd.2]

/-- On a well-formed graph, `clone` reproduces the graph value exactly: the
same `circular` flag, the same node identities with the same (shared)
payloads, and equal edge arrays. -/
theorem clone_eq (g : DepGraph V) (h : WF g) : g.clone = g := by
  obtain ⟨ns, og, ic, c⟩ := g
  have h1 := rebuild_eq ns og ([] : List V) h.out_keys h.keys_nodup
  have h2 := rebuild_eq ns ic ([] : List V) h.in_keys h.keys_nodup
  simp only [DepGraph.clone] at h1 h2 ⊢
  rw [h1, h2]

theorem WF_addNode (g : DepGraph V) (h : WF g) (n d : V) :
    WF (g.addNode n d) := by
  rw [DepGraph.addNode]
  split_ifs with h0
  · exact h
  · have hn : ¬ n ∈ g.nodes.map Prod.fst := fun hc => h0 ((hasNode_iff g n).mpr hc)
    have hno : ¬ n ∈ g.outgoingEdges.map Prod.fst := by rw [h.out_keys]; exact hn
    have hni : ¬ n ∈ g.incomingEdges.map Prod.fst := by rw [h.in_keys]; exact hn
    have es : mapSet g.nodes n d = g.nodes ++ [(n, d)] := mapSet_eq_append _ _ _ hn
    have eso : mapSet g.outgoingEdges n [] = g.outgoingEdges ++ [(n, [])] :=
      mapSet_eq_append _ _ _ hno
    have esi : mapSet g.incomingEdges n [] = g.incomingEdges ++ [(n, [])] :=
      mapSet_eq_append _ _ _ hni
    refine ⟨?_, ?_, ?_, ?_, ?_, ?_⟩
    · simp only [es, eso, List.map_append, List.map_cons, List.map_nil]
      rw [h.out_keys]
    · simp only [es, esi, List.map_append, List.map_cons, List.map_nil]
      rw [h.in_keys]
    · simp only [es, List.map_append, List.map_cons, List.map_nil]
      rw [List.nodup_append]
      refine ⟨h.keys_nodup, List.nodup_singleton _, ?_⟩
      intro x hx hx'
      rw [List.mem_singleton] at hx'
      subst hx'
      exact hn hx
    · simp only [es, eso]
      intro p hp
      rcases List.mem_append.mp hp with hp | hp
      · obtain ⟨hpn, hpc⟩ := h.2.2.2.1 p hp
        refine ⟨hpn, fun m hm => ?_⟩
        simp only [List.map_append]
        exact List.mem_append_left _ (hpc m hm)
      · rw [List.mem_singleton] at hp
        subst hp
        exact ⟨List.nodup_nil, fun m hm => absurd hm (List.not_mem_nil m)⟩
    · simp only [es, esi]
      intro p hp
      rcases List.mem_append.mp hp with hp | hp
      · obtain ⟨hpn, hpc⟩ := h.2.2.2.2.1 p hp
        refine ⟨hpn, fun m hm => ?_⟩
        simp only [List.map_append]
        exact List.mem_append_left _ (hpc m hm)
      · rw [List.mem_singleton] at hp
        subst hp
        exact ⟨List.nodup_nil, fun m hm => absurd hm (List.not_mem_nil m)⟩
    · simp only [es, eso, esi]
      intro a ha b hb
      simp only [List.map_append, List.map_cons, List.map_nil] at ha hb
      rcases List.mem_append.mp ha with ha | ha
      · rw [mapGetD_append_left _ _ _ _ (by rw [h.out_keys]; exact ha)]
        rcases List.mem_append.mp hb with hb | hb
        · rw [mapGetD_append_left _ _ _ _ (by rw [h.in_keys]; exact hb)]
          exact h.2.2.2.2.2 a ha b hb
        · obtain rfl : b = n := by simpa using hb
          rw [mapGetD_append_right _ _ _ _ hni]
          have hone : mapGetD [(b, ([] : List V))] b [] = [] := by
            simp [mapGetD, mapGet]
          rw [hone]
          simp only [List.not_mem_nil, iff_false]
          intro hmem
          obtain ⟨l, hget, hbl⟩ := mem_mapGetD hmem
          exact hn ((h.2.2.2.1 _ (mapGet_mem hget)).2 b hbl)
      · obtain rfl : a = n := by simpa using ha
        rw [mapGetD_append_right _ _ _ _ hno]
        have hone : mapGetD [(a, ([] : List V))] a [] = [] := by
          simp [mapGetD, mapGet]
        rw [hone]
        simp only [List.not_mem_nil, false_iff]
        intro hmem
        rcases List.mem_append.mp hb with hb | hb
        · rw [mapGetD_append_left _ _ _ _ (by rw [h.in_keys]; exact hb)] at hmem
          obtain ⟨l, hget, hal⟩ := mem_mapGetD hmem
          exact hn ((h.2.2.2.2.1 _ (mapGet_mem hget)).2 a hal)
        · obtain rfl : b = a := by simpa using hb
          rw [mapGetD_append_right _ _ _ _ hni] at hmem
          have hone₂ : mapGetD [(b, ([] : List V))] b [] = [] := by
            simp [mapGetD, mapGet]
          rw [hone₂] at hmem
          cases hmem

theorem addNode1_eq_addNode (g : DepGraph V) (n : V) :
    g.addNode1 n = g.addNode n n := rfl

theorem mapGetD_delete_erase (m : List (V × List V)) (n a : V) (hne : ¬ a = n) :
    mapGetD ((mapDelete m n).map (fun p => (p.1, p.2.erase n))) a [] =
      (mapGetD m a []).erase n := by
  unfold mapGetD
  rw [mapGet_map_value (mapDelete m n) (fun l => l.erase n) a,
    mapGet_mapDelete_ne _ _ _ hne]
  cases mapGet m a <;> simp

theorem WF_removeNode (g : DepGraph V) (h : WF g) (n : V) :
    WF (g.removeNode n) := by
  rw [DepGraph.removeNode]
  split_ifs with h0
  · have hko : (((mapDelete g.outgoingEdges n).map
        (fun p => (p.1, p.2.erase n))).map Prod.fst) =
        (g.nodes.map Prod.fst).erase n := by
      rw [map_fst_map_value (mapDelete g.outgoingEdges n) (fun l => l.erase n),
        mapDelete_map_fst, h.out_keys]
    have hki : (((mapDelete g.incomingEdges n).map
        (fun p => (p.1, p.2.erase n))).map Prod.fst) =
        (g.nodes.map Prod.fst).erase n := by
      rw [map_fst_map_value (mapDelete g.incomingEdges n) (fun l => l.erase n),
        mapDelete_map_fst, h.in_keys]
    have hkn : ((mapDelete g.nodes n).map Prod.fst) =
        (g.nodes.map Prod.fst).erase n := mapDelete_map_fst _ _
    refine ⟨?_, ?_, ?_, ?_, ?_, ?_⟩
    · rw [hko, hkn]
    · rw [hki, hkn]
    · rw [hkn]
      exact h.keys_nodup.erase n
    · intro p hp
      rcases List.mem_map.mp hp with ⟨q, hq, rfl⟩
      have hq' : q ∈ g.outgoingEdges := (mapDelete_sublist _ _).subset hq
      obtain ⟨hqn, hqc⟩ := h.2.2.2.1 q hq'
      refine ⟨hqn.erase n, ?_⟩
      intro m hm
      rw [hqn.mem_erase_iff] at hm
      rw [hkn]
      exact (List.mem_erase_of_ne hm.1).mpr (hqc m hm.2)
    · intro p hp
      rcases List.mem_map.mp hp with ⟨q, hq, rfl⟩
      have hq' : q ∈ g.incomingEdges := (mapDelete_sublist _ _).subset hq
      obtain ⟨hqn, hqc⟩ := h.2.2.2.2.1 q hq'
      refine ⟨hqn.erase n, ?_⟩
      intro m hm
      rw [hqn.mem_erase_iff] at hm
      rw [hkn]
      exact (List.mem_erase_of_ne hm.1).mpr (hqc m hm.2)
    · intro a ha b hb
      rw [hkn] at ha hb
      rw [h.keys_nodup.mem_erase_iff] at ha hb
      rw [mapGetD_delete_erase _ _ _ ha.1, mapGetD_delete_erase _ _ _ hb.1,
        List.mem_erase_of_ne (fun hc : b = n => hb.1 hc),
        List.mem_erase_of_ne (fun hc : a = n => ha.1 hc)]
      exact h.2.2.2.2.2 a ha.2 b hb.2
  · exact h

/-- After `removeNode(n)`, no remaining edge array mentions `n` (for the
absent-node no-op case this already follows from closure). -/
theorem removeNode_no_ref (g : DepGraph V) (h : WF g) (n : V) :
    (∀ k l, mapGet (g.removeNode n).outgoingEdges k = some l → ¬ n ∈ l) ∧
    (∀ k l, mapGet (g.removeNode n).incomingEdges k = some l → ¬ n ∈ l) := by
  rw [DepGraph.removeNode]
  split_ifs with h0
  · constructor
    · intro k l hget hmem
      dsimp only at hget
      rw [mapGet_map_value (mapDelete g.outgoingEdges n) (fun l => l.erase n) k] at hget
      cases hg : mapGet (mapDelete g.outgoingEdges n) k with
      | none =>
        rw [hg] at hget
        cases hget
      | some l₀ =>
        rw [hg] at hget
        simp only [Option.map_some'] at hget
        obtain rfl : l₀.erase n = l := by injection hget
        have hq : (k, l₀) ∈ g.outgoingEdges :=
          (mapDelete_sublist _ _).subset (mapGet_mem hg)
        have hnd := (h.2.2.2.1 _ hq).1
        rw [hnd.mem_erase_iff] at hmem
        exact hmem.1 rfl
    · intro k l hget hmem
      dsimp only at hget
      rw [mapGet_map_value (mapDelete g.incomingEdges n) (fun l => l.erase n) k] at hget
      cases hg : mapGet (mapDelete g.incomingEdges n) k with
      | none =>
        rw [hg] at hget
        cases hget
      | some l₀ =>
        rw [hg] at hget
        simp only [Option.map_some'] at hget
        obtain rfl : l₀.erase n = l := by injection hget
        have hq : (k, l₀) ∈ g.incomingEdges :=
          (mapDelete_sublist _ _).subset (mapGet_mem hg)
        have hnd := (h.2.2.2.2.1 _ hq).1
        rw [hnd.mem_erase_iff] at hmem
        exact hmem.1 rfl
  · have hn : ¬ n ∈ g.nodes.map Prod.fst := fun hc => h0 ((hasNode_iff g n).mpr hc)
    constructor
    · intro k l hget hmem
      exact hn ((h.2.2.2.1 _ (mapGet_mem hget)).2 n hmem)
    · intro k l hget hmem
      exact hn ((h.2.2.2.2.1 _ (mapGet_mem hget)).2 n hmem)

theorem mapAdjust_values_wf (E : List (V × List V)) (S : List V)
    (hE : ∀ p ∈ E, p.2.Nodup ∧ ∀ m ∈ p.2, m ∈ S) (k₀ : V) (f : List V → List V)
    (hf : ∀ l, l.Nodup → (∀ m ∈ l, m ∈ S) → (f l).Nodup ∧ ∀ m ∈ f l, m ∈ S) :
    ∀ p ∈ mapAdjust E k₀ f, p.2.Nodup ∧ ∀ m ∈ p.2, m ∈ S := by
  intro p hp
  rcases mapAdjust_mem hp with hp | ⟨v, hv, rfl⟩
  · exact hE p hp
  · exact hf v (hE _ hv).1 (hE _ hv).2

theorem mem_push_iff (l : List V) (b y : V) (hyb : ¬ y = b) :
    y ∈ (if b ∈ l then l else l ++ [b]) ↔ y ∈ l := by
  split_ifs with hmem
  · exact Iff.rfl
  · rw [List.mem_append]
    constructor
    · rintro (hy | hy)
      · exact hy
      · exact absurd (List.mem_singleton.mp hy) hyb
    · exact fun hy => .inl hy

theorem mem_push_self (l : List V) (b : V) :
    b ∈ (if b ∈ l then l else l ++ [b]) := by
  split_ifs with hmem
  · exact hmem
  · exact List.mem_append_right _ (List.mem_singleton.mpr rfl)

theorem WF_addDependency (g : DepGraph V) (h : WF g) (a b : V) (g' : DepGraph V)
    (hok : g.addDependency a b = .ok g') : WF g' := by
  rw [DepGraph.addDependency] at hok
  split_ifs at hok with h1 h2
  have ha : a ∈ g.nodes.map Prod.fst := (hasNode_iff g a).mp h1
  have hb : b ∈ g.nodes.map Prod.fst := (hasNode_iff g b).mp h2
  obtain rfl : { g with
      outgoingEdges := mapAdjust g.outgoingEdges a
        (fun l => if b ∈ l then l else l ++ [b])
      incomingEdges := mapAdjust g.incomingEdges b
        (fun l => if a ∈ l then l else l ++ [a]) } = g' := by
    injection hok
  obtain ⟨la, hla⟩ := Option.isSome_iff_exists.mp
    ((mapGet_isSome_iff _ _).mpr (by rw [h.out_keys]; exact ha))
  obtain ⟨lb, hlb⟩ := Option.isSome_iff_exists.mp
    ((mapGet_isSome_iff _ _).mpr (by rw [h.in_keys]; exact hb))
  have hgda : mapGetD g.outgoingEdges a [] = la := by
    unfold mapGetD
    rw [hla]
    rfl
  have hgdb : mapGetD g.incomingEdges b [] = lb := by
    unfold mapGetD
    rw [hlb]
    rfl
  have hgo : ∀ z, mapGetD (mapAdjust g.outgoingEdges a
      (fun l => if b ∈ l then l else l ++ [b])) z [] =
      if z = a then (if b ∈ la then la else la ++ [b])
      else mapGetD g.outgoingEdges z [] := by
    intro z
    by_cases hz : z = a
    · subst hz
      unfold mapGetD
      rw [mapGet_mapAdjust_self, hla, if_pos rfl]
      rfl
    · unfold mapGetD
      rw [mapGet_mapAdjust_ne _ _ _ _ hz, if_neg hz]
  have hgi : ∀ z, mapGetD (mapAdjust g.incomingEdges b
      (fun l => if a ∈ l then l else l ++ [a])) z [] =
      if z = b then (if a ∈ lb then lb else lb ++ [a])
      else mapGetD g.incomingEdges z [] := by
    intro z
    by_cases hz : z = b
    · subst hz
      unfold mapGetD
      rw [mapGet_mapAdjust_self, hlb, if_pos rfl]
      rfl
    · unfold mapGetD
      rw [mapGet_mapAdjust_ne _ _ _ _ hz, if_neg hz]
  refine ⟨?_, ?_, ?_, ?_, ?_, ?_⟩
  · dsimp only
    rw [mapAdjust_map_fst]
    exact h.out_keys
  · dsimp only
    rw [mapAdjust_map_fst]
    exact h.in_keys
  · exact h.keys_nodup
  · dsimp only
    refine mapAdjust_values_wf _ _ h.2.2.2.1 _ _ ?_
    intro l hnd hcl
    constructor
    · split_ifs with hmem
      · exact hnd
      · rw [List.nodup_append]
        exact ⟨hnd, List.nodup_singleton _,
          fun x hx hx' => hmem ((List.mem_singleton.mp hx') ▸ hx)⟩
    · intro m hm
      split_ifs at hm with hmem
      · exact hcl m hm
      · rcases List.mem_append.mp hm with hm | hm
        · exact hcl m hm
        · rw [List.mem_singleton.mp hm]
          exact hb
  · dsimp only
    refine mapAdjust_values_wf _ _ h.2.2.2.2.1 _ _ ?_
    intro l hnd hcl
    constructor
    · split_ifs with hmem
      · exact hnd
      · rw [List.nodup_append]
        exact ⟨hnd, List.nodup_singleton _,
          fun x hx hx' => hmem ((List.mem_singleton.mp hx') ▸ hx)⟩
    · intro m hm
      split_ifs at hm with hmem
      · exact hcl m hm
      · rcases List.mem_append.mp hm with hm | hm
        · exact hcl m hm
        · rw [List.mem_singleton.mp hm]
          exact ha
  · dsimp only
    intro x hx y hy
    rw [hgo x, hgi y]
    by_cases hxa : x = a
    · subst hxa
      rw [if_pos rfl]
      by_cases hyb : y = b
      · subst hyb
        rw [if_pos rfl]
        exact iff_of_true (mem_push_self _ _) (mem_push_self _ _)
      · rw [if_neg hyb, mem_push_iff _ _ _ hyb]
        have hsym := h.2.2.2.2.2 x hx y hy
        rw [hgda] at hsym
        exact hsym
    · rw [if_neg hxa]
      by_cases hyb : y = b
      · subst hyb
        rw [if_pos rfl, mem_push_iff _ _ _ hxa]
        have hsym := h.2.2.2.2.2 x hx y hy
        rw [hgdb] at hsym
        exact hsym
      · rw [if_neg hyb]
        exact h.2.2.2.2.2 x hx y hy

theorem WF_removeDependency (g : DepGraph V) (h : WF g) (a b : V) :
    WF (g.removeDependency a b) := by
  rw [DepGraph.removeDependency]
  have hgo : ∀ z, mapGetD (if g.hasNode a = true then
        mapAdjust g.outgoingEdges a (fun l => l.erase b) else g.outgoingEdges) z [] =
      if z = a ∧ g.hasNode a = true then (mapGetD g.outgoingEdges a []).erase b
      else mapGetD g.outgoingEdges z [] := by
    intro z
    by_cases hhas : g.hasNode a = true
    · rw [if_pos hhas]
      by_cases hz : z = a
      · subst hz
        rw [if_pos ⟨rfl, hhas⟩]
        unfold mapGetD
        rw [mapGet_mapAdjust_self]
        cases mapGet g.outgoingEdges z <;> simp
      · rw [if_neg (fun hc : z = a ∧ _ => hz hc.1)]
        unfold mapGetD
        rw [mapGet_mapAdjust_ne _ _ _ _ hz]
    · rw [if_neg hhas, if_neg (fun hc : z = a ∧ _ => hhas hc.2)]
  have hgi : ∀ z, mapGetD (if g.hasNode b = true then
        mapAdjust g.incomingEdges b (fun l => l.erase a) else g.incomingEdges) z [] =
      if z = b ∧ g.hasNode b = true then (mapGetD g.incomingEdges b []).erase a
      else mapGetD g.incomingEdges z [] := by
    intro z
    by_cases hhas : g.hasNode b = true
    · rw [if_pos hhas]
      by_cases hz : z = b
      · subst hz
        rw [if_pos ⟨rfl, hhas⟩]
        unfold mapGetD
        rw [mapGet_mapAdjust_self]
        cases mapGet g.incomingEdges z <;> simp
      · rw [if_neg (fun hc : z = b ∧ _ => hz hc.1)]
        unfold mapGetD
        rw [mapGet_mapAdjust_ne _ _ _ _ hz]
    · rw [if_neg hhas, if_neg (fun hc : z = b ∧ _ => hhas hc.2)]
  have hvalo : ∀ p ∈ (if g.hasNode a = true then
      mapAdjust g.outgoingEdges a (fun l => l.erase b) else g.outgoingEdges),
      p.2.Nodup ∧ ∀ m ∈ p.2, m ∈ g.nodes.map Prod.fst := by
    split_ifs with hhas
    · refine mapAdjust_values_wf _ _ h.2.2.2.1 _ _ ?_
      intro l hnd hcl
      exact ⟨hnd.erase b, fun m hm => hcl m (List.mem_of_mem_erase hm)⟩
    · exact h.2.2.2.1
  have hvali : ∀ p ∈ (if g.hasNode b = true then
      mapAdjust g.incomingEdges b (fun l => l.erase a) else g.incomingEdges),
      p.2.Nodup ∧ ∀ m ∈ p.2, m ∈ g.nodes.map Prod.fst := by
    split_ifs with hhas
    · refine mapAdjust_values_wf _ _ h.2.2.2.2.1 _ _ ?_
      intro l hnd hcl
      exact ⟨hnd.erase a, fun m hm => hcl m (List.mem_of_mem_erase hm)⟩
    · exact h.2.2.2.2.1
  have hkeyso : (if g.hasNode a = true then
      mapAdjust g.outgoingEdges a (fun l => l.erase b) else g.outgoingEdges).map
        Prod.fst = g.nodes.map Prod.fst := by
    split_ifs with hhas
    · rw [mapAdjust_map_fst]
      exact h.out_keys
    · exact h.out_keys
  have hkeysi : (if g.hasNode b = true then
      mapAdjust g.incomingEdges b (fun l => l.erase a) else g.incomingEdges).map
        Prod.fst = g.nodes.map Prod.fst := by
    split_ifs with hhas
    · rw [mapAdjust_map_fst]
      exact h.in_keys
    · exact h.in_keys
  have hnda : (mapGetD g.outgoingEdges a []).Nodup := by
    cases hg : mapGet g.outgoingEdges a with
    | none =>
      unfold mapGetD
      rw [hg]
      exact List.nodup_nil
    | some l =>
      unfold mapGetD
      rw [hg]
      exact (h.2.2.2.1 _ (mapGet_mem hg)).1
  have hndb : (mapGetD g.incomingEdges b []).Nodup := by
    cases hg : mapGet g.incomingEdges b with
    | none =>
      unfold mapGetD
      rw [hg]
      exact List.nodup_nil
    | some l =>
      unfold mapGetD
      rw [hg]
      exact (h.2.2.2.2.1 _ (mapGet_mem hg)).1
  refine ⟨hkeyso, hkeysi, h.keys_nodup, hvalo, hvali, ?_⟩
  intro x hx y hy
  rw [hgo x, hgi y]
  have hsym := h.2.2.2.2.2 x hx y hy
  by_cases hxa : x = a ∧ g.hasNode a = true
  · rw [if_pos hxa]
    obtain ⟨rfl, _⟩ := hxa
    by_cases hyb : y = b ∧ g.hasNode b = true
    · rw [if_pos hyb]
      obtain ⟨rfl, _⟩ := hyb
      constructor
      · intro hmem
        exact absurd rfl (hnda.mem_erase_iff.mp hmem).1
      · intro hmem
        exact absurd rfl (hndb.mem_erase_iff.mp hmem).1
    · rw [if_neg hyb]
      rw [List.mem_erase_of_ne]
      · exact hsym
      · intro hc
        subst hc
        exact hyb ⟨rfl, (hasNode_iff g y).mpr hy⟩
  · rw [if_neg hxa]
    by_cases hyb : y = b ∧ g.hasNode b = true
    · rw [if_pos hyb]
      obtain ⟨rfl, _⟩ := hyb
      rw [List.mem_erase_of_ne]
      · exact hsym
      · intro hc
        subst hc
        exact hxa ⟨rfl, (hasNode_iff g x).mpr hx⟩
    · rw [if_neg hyb]
      exact hsym

/-- The restricted symmetry of `WF` extends to every pair of values. -/
theorem WF.symm_all {g : DepGraph V} (h : WF g) :
    ∀ a b, b ∈ mapGetD g.outgoingEdges a [] ↔ a ∈ mapGetD g.incomingEdges b [] := by
  intro a b
  by_cases ha : a ∈ g.nodes.map Prod.fst
  · by_cases hb : b ∈ g.nodes.map Prod.fst
    · exact h.2.2.2.2.2 a ha b hb
    · constructor
      · intro hmem
        obtain ⟨l, hget, hbl⟩ := mem_mapGetD hmem
        exact absurd ((h.2.2.2.1 _ (mapGet_mem hget)).2 b hbl) hb
      · intro hmem
        obtain ⟨l, hget, _⟩ := mem_mapGetD hmem
        have hbk : b ∈ g.incomingEdges.map Prod.fst :=
          (mapGet_isSome_iff _ _).mp (by rw [hget]; rfl)
        rw [h.in_keys] at hbk
        exact absurd hbk hb
  · constructor
    · intro hmem
      obtain ⟨l, hget, _⟩ := mem_mapGetD hmem
      have hak : a ∈ g.outgoingEdges.map Prod.fst :=
        (mapGet_isSome_iff _ _).mp (by rw [hget]; rfl)
      rw [h.out_keys] at hak
      exact absurd hak ha
    · intro hmem
      obtain ⟨l, hget, hal⟩ := mem_mapGetD hmem
      exact absurd ((h.2.2.2.2.1 _ (mapGet_mem hget)).2 a hal) ha

/-- C4: every mutation (`addNode` in both arities, `removeNode`,
`addDependency`, `removeDependency`) and `clone` preserves the graph
invariants: the edge indices stay symmetric for every pair of values, the
key sets of the registry and of both indices coincide, and after
`removeNode(n)` no remaining edge array mentions `n`. -/
theorem claim_C4 (g : DepGraph V) (h : WF g) (n a b d : V) :
    (WF (g.addNode n d) ∧ WF (g.addNode1 n) ∧ WF (g.removeNode n) ∧
     (∀ g', g.addDependency a b = .ok g' → WF g') ∧
     WF (g.removeDependency a b) ∧ WF g.clone) ∧
    (∀ x y, y ∈ mapGetD (g.removeNode n).outgoingEdges x [] ↔
      x ∈ mapGetD (g.removeNode n).incomingEdges y []) ∧
    ((g.removeNode n).outgoingEdges.map Prod.fst =
      (g.removeNode n).nodes.map Prod.fst ∧
     (g.removeNode n).incomingEdges.map Prod.fst =
      (g.removeNode n).nodes.map Prod.fst) ∧
    (∀ k l, mapGet (g.removeNode n).outgoingEdges k = some l → ¬ n ∈ l) ∧
    (∀ k l, mapGet (g.removeNode n).incomingEdges k = some l → ¬ n ∈ l) := by
  have hrm := WF_removeNode g h n
  exact ⟨⟨WF_addNode g h n d,
      by rw [addNode1_eq_addNode]; exact WF_addNode g h n n,
      hrm, fun g' => WF_addDependency g h a b g', WF_removeDependency g h a b,
      by rw [clone_eq g h]; exact h⟩,
    hrm.symm_all, ⟨hrm.out_keys, hrm.in_keys⟩,
    (removeNode_no_ref g h n).1, (removeNode_no_ref g h n).2⟩

/-- Witness for C4 on a concrete graph. -/
theorem claim_C4_witness :
    WF gWit ∧
    ((WF (gWit.addNode "a" "x") ∧ WF (gWit.addNode1 "a") ∧
      WF (gWit.removeNode "a") ∧
      (∀ g', gWit.addDependency "a" "b" = .ok g' → WF g') ∧
      WF (gWit.removeDependency "a" "b") ∧ WF gWit.clone) ∧
     (∀ x y, y ∈ mapGetD (gWit.removeNode "a").outgoingEdges x [] ↔
       x ∈ mapGetD (gWit.removeNode "a").incomingEdges y []) ∧
     ((gWit.removeNode "a").outgoingEdges.map Prod.fst =
       (gWit.removeNode "a").nodes.map Prod.fst ∧
      (gWit.removeNode "a").incomingEdges.map Prod.fst =
       (gWit.removeNode "a").nodes.map Prod.fst) ∧
     (∀ k l, mapGet (gWit.removeNode "a").outgoingEdges k = some l → ¬ "a" ∈ l) ∧
     (∀ k l, mapGet (gWit.removeNode "a").incomingEdges k = some l → ¬ "a" ∈ l)) :=
  ⟨by decide, claim_C4 gWit (by decide) "a" "a" "b" "x"⟩

/-! ## Heap lemmas for the `clone` independence claim -/

theorem hread_halloc_ne (h : HHeap V) (xs : List V) (i : Nat) (hi : ¬ i = h.next) :
    hread (halloc h xs).1 i = hread h i := by
  unfold hread halloc
  by_cases hmem : i ∈ h.arrs.map Prod.fst
  · exact mapGetD_append_left _ _ _ _ hmem
  · rw [mapGetD_append_right _ _ _ _ hmem]
    unfold mapGetD
    rw [mapGet_eq_none _ _ hmem]
    have hne : ¬ h.next = i := fun hc => hi hc.symm
    simp [mapGet, hne]

theorem hread_halloc_self (h : HHeap V) (xs : List V)
    (hb : ∀ p ∈ h.arrs, p.1 < h.next) :
    hread (halloc h xs).1 h.next = xs := by
  unfold hread halloc
  have hmem : ¬ h.next ∈ h.arrs.map Prod.fst := by
    intro hc
    rcases List.mem_map.mp hc with ⟨p, hp, hp1⟩
    exact absurd (hp1 ▸ hb p hp) (lt_irrefl _)
  rw [mapGetD_append_right _ _ _ _ hmem]
  simp [mapGetD, mapGet]

theorem heapWF_halloc (h : HHeap V) (xs : List V)
    (hb : ∀ p ∈ h.arrs, p.1 < h.next) :
    ∀ p ∈ (halloc h xs).1.arrs, p.1 < (halloc h xs).1.next := by
  intro p hp
  unfold halloc at hp ⊢
  simp only at hp ⊢
  rcases List.mem_append.mp hp with hp | hp
  · exact lt_trans (hb p hp) (Nat.lt_succ_self _)
  · rw [List.mem_singleton] at hp
    subst hp
    exact Nat.lt_succ_self _

theorem hread_hwrite_ne (h : HHeap V) (i j : Nat) (xs : List V) (hij : ¬ j = i) :
    hread (hwrite h i xs) j = hread h j := by
  unfold hread hwrite mapGetD
  rw [mapGet_mapAdjust_ne _ _ _ _ hij]

theorem hnext_halloc (h : HHeap V) (xs : List V) :
    (halloc h xs).1.next = h.next + 1 := rfl

/-- Full behavior of the clone allocation pass: the heap only grows, reads of
pre-existing arrays are untouched, the produced indices bind exactly the
given node keys, and every bound id is fresh and holds a copy of that node's
original array. -/
theorem hcloneAux_spec (g : HGraph V) :
    ∀ (ns : List (V × V)) (h : HHeap V),
    (∀ p ∈ h.arrs, p.1 < h.next) →
    (∀ q ∈ ns, mapGetD g.outgoing q.1 0 < h.next ∧
      mapGetD g.incoming q.1 0 < h.next) →
    (∀ p ∈ (hcloneAux g h ns).1.arrs, p.1 < (hcloneAux g h ns).1.next) ∧
    h.next ≤ (hcloneAux g h ns).1.next ∧
    (∀ i, i < h.next → hread (hcloneAux g h ns).1 i = hread h i) ∧
    ((hcloneAux g h ns).2.1.map Prod.fst = ns.map Prod.fst) ∧
    ((hcloneAux g h ns).2.2.map Prod.fst = ns.map Prod.fst) ∧
    (∀ q ∈ ns, ∀ oid, mapGet (hcloneAux g h ns).2.1 q.1 = some oid →
      h.next ≤ oid ∧
      hread (hcloneAux g h ns).1 oid = hread h (mapGetD g.outgoing q.1 0)) ∧
    (∀ q ∈ ns, ∀ iid, mapGet (hcloneAux g h ns).2.2 q.1 = some iid →
      h.next ≤ iid ∧
      hread (hcloneAux g h ns).1 iid = hread h (mapGetD g.incoming q.1 0)) := by
  intro ns
  induction ns with
  | nil =>
    intro h hb _
    refine ⟨hb, le_refl _, fun i _ => rfl, rfl, rfl, ?_, ?_⟩
    · intro q hq
      cases hq
    · intro q hq
      cases hq
  | cons q₀ rest ih =>
    intro h hb hids
    obtain ⟨n, d⟩ := q₀
    have hidn := hids (n, d) (List.mem_cons_self _ _)
    -- the two fresh allocations for this node
    set co := hread h (mapGetD g.outgoing n 0) with hco
    set O := (halloc h co).1 with hO
    have hOb : ∀ p ∈ O.arrs, p.1 < O.next := heapWF_halloc h co hb
    have hOn : O.next = h.next + 1 := rfl
    have hreadO : ∀ i, i < h.next → hread O i = hread h i := by
      intro i hi
      exact hread_halloc_ne h co i (fun hc => absurd (hc ▸ hi) (lt_irrefl _))
    set ci := hread O (mapGetD g.incoming n 0) with hci
    set I := (halloc O ci).1 with hI
    have hIb : ∀ p ∈ I.arrs, p.1 < I.next := heapWF_halloc O ci hOb
    have hIn : I.next = h.next + 2 := rfl
    have hreadI : ∀ i, i < O.next → hread I i = hread O i := by
      intro i hi
      exact hread_halloc_ne O ci i (fun hc => absurd (hc ▸ hi) (lt_irrefl _))
    have hrec := ih I hIb (by
      intro q hq
      obtain ⟨h1, h2⟩ := hids q (List.mem_cons_of_mem _ hq)
      rw [hIn]
      omega)
    obtain ⟨r1, r2, r3, r4, r5, r6, r7⟩ := hrec
    have hstep : hcloneAux g h ((n, d) :: rest) =
        ((hcloneAux g I rest).1,
          (n, h.next) :: (hcloneAux g I rest).2.1,
          (n, h.next + 1) :: (hcloneAux g I rest).2.2) := rfl
    rw [hstep]
    dsimp only
    have hreadIh : ∀ i, i < h.next → hread I i = hread h i := by
      intro i hi
      rw [hreadI i (by rw [hOn]; omega), hreadO i hi]
    refine ⟨r1, by rw [hIn] at r2; omega, ?_, ?_, ?_, ?_, ?_⟩
    · intro i hi
      rw [r3 i (by rw [hIn]; omega), hreadIh i hi]
    · simp [r4]
    · simp [r5]
    · intro q hq oid hget
      simp only [mapGet] at hget
      by_cases hqn : n = q.1
      · rw [if_pos hqn] at hget
        obtain rfl : h.next = oid := by injection hget
        refine ⟨le_refl _, ?_⟩
        have hv : hread I h.next = co := by
          rw [hreadI h.next (by rw [hOn]; omega)]
          exact hread_halloc_self h co hb
        rw [r3 h.next (by rw [hIn]; omega), hv, hco, ← hqn]
      · rw [if_neg hqn] at hget
        have hqr : q ∈ rest := by
          rcases List.mem_cons.mp hq with hc | hc
          · exact absurd (by rw [hc]) hqn
          · exact hc
        obtain ⟨ho1, ho2⟩ := r6 q hqr oid hget
        refine ⟨by rw [hIn] at ho1; omega, ?_⟩
        rw [ho2]
        exact hreadIh _ (hids q (List.mem_cons_of_mem _ hqr)).1
    · intro q hq iid hget
      simp only [mapGet] at hget
      by_cases hqn : n = q.1
      · rw [if_pos hqn] at hget
        obtain rfl : h.next + 1 = iid := by injection hget
        refine ⟨by omega, ?_⟩
        have hv : hread I (h.next + 1) = ci := by
          rw [show h.next + 1 = O.next from rfl]
          exact hread_halloc_self O ci hOb
        rw [r3 (h.next + 1) (by rw [hIn]; omega), hv, hci, ← hqn]
        exact hreadO _ hidn.2
      · rw [if_neg hqn] at hget
        have hqr : q ∈ rest := by
          rcases List.mem_cons.mp hq with hc | hc
          · exact absurd (by rw [hc]) hqn
          · exact hc
        obtain ⟨ho1, ho2⟩ := r7 q hqr iid hget
        refine ⟨by rw [hIn] at ho1; omega, ?_⟩
        rw [ho2]
        exact hreadIh _ (hids q (List.mem_cons_of_mem _ hqr)).2

theorem hread_condWrite (h : HHeap V) (c : Prop) [Decidable c] (j i : Nat)
    (xs : List V) (hij : ¬ i = j) :
    hread (if c then h else hwrite h j xs) i = hread h i := by
  split_ifs
  · rfl
  · exact hread_hwrite_ne h j i xs hij

/-- `addDependency` only writes through the mutated graph's own array ids:
a read at any id that is not one of that graph's outgoing or incoming array
ids is unchanged. -/
theorem haddDependency_frame (h : HHeap V) (G : HGraph V) (a b : V)
    (h₂ : HHeap V) (i : Nat) (hok : haddDependency h G a b = .ok h₂)
    (hio : ∀ n ∈ G.nodes.map Prod.fst, ¬ mapGetD G.outgoing n 0 = i)
    (hii : ∀ n ∈ G.nodes.map Prod.fst, ¬ mapGetD G.incoming n 0 = i) :
    hread h₂ i = hread h i := by
  rw [haddDependency] at hok
  by_cases h1 : (mapGet G.nodes a).isSome
  · rw [if_neg (not_not_intro h1)] at hok
    by_cases h2 : (mapGet G.nodes b).isSome
    · rw [if_neg (not_not_intro h2)] at hok
      dsimp only at hok
      have ha : a ∈ G.nodes.map Prod.fst := (mapGet_isSome_iff _ _).mp h1
      have hb : b ∈ G.nodes.map Prod.fst := (mapGet_isSome_iff _ _).mp h2
      injection hok with hX
      subst hX
      rw [hread_condWrite _ _ _ _ _ (fun hc => hii b hb hc.symm),
        hread_condWrite _ _ _ _ _ (fun hc => hio a ha hc.symm)]
    · rw [if_pos h2] at hok
      cases hok
  · rw [if_pos h1] at hok
    cases hok

/-- `removeDependency` only writes through the mutated graph's own array
ids: a read at any id that is not one of that graph's outgoing or incoming
array ids is unchanged. -/
theorem hremoveDependency_frame (h : HHeap V) (G : HGraph V) (a b : V)
    (i : Nat)
    (hio : ∀ n ∈ G.nodes.map Prod.fst, ¬ mapGetD G.outgoing n 0 = i)
    (hii : ∀ n ∈ G.nodes.map Prod.fst, ¬ mapGetD G.incoming n 0 = i) :
    hread (hremoveDependency h G a b) i = hread h i := by
  simp only [hremoveDependency]
  by_cases hb : (mapGet G.nodes b).isSome
  · rw [if_pos hb]
    have hbm : b ∈ G.nodes.map Prod.fst := (mapGet_isSome_iff _ _).mp hb
    rw [hread_hwrite_ne _ _ _ _ (fun hc => hii b hbm hc.symm)]
    by_cases hA : (mapGet G.nodes a).isSome
    · rw [if_pos hA]
      exact hread_hwrite_ne _ _ _ _
        (fun hc => hio a ((mapGet_isSome_iff _ _).mp hA) hc.symm)
    · rw [if_neg hA]
  · rw [if_neg hb]
    by_cases hA : (mapGet G.nodes a).isSome
    · rw [if_pos hA]
      exact hread_hwrite_ne _ _ _ _
        (fun hc => hio a ((mapGet_isSome_iff _ _).mp hA) hc.symm)
    · rw [if_neg hA]

/-- C7: on a well-formed heap-model graph, `clone` returns a graph with the
same circular-tolerant flag and the same node list (identities and payload
references shared), whose freshly allocated edge arrays read equal to the
source's; afterwards `addDependency`/`removeDependency` performed on the
clone leave every edge array of the source unchanged, and the same
operations performed on the source leave every edge array of the clone
unchanged. -/
theorem claim_C7 (h : HHeap V) (g : HGraph V) (hwf : HWF h g) :
    ((hclone h g).2.circular = g.circular ∧ (hclone h g).2.nodes = g.nodes) ∧
    (∀ n ∈ g.nodes.map Prod.fst,
      hread (hclone h g).1 (mapGetD (hclone h g).2.outgoing n 0) =
        hread h (mapGetD g.outgoing n 0) ∧
      hread (hclone h g).1 (mapGetD (hclone h g).2.incoming n 0) =
        hread h (mapGetD g.incoming n 0)) ∧
    (∀ a b h₂, haddDependency (hclone h g).1 (hclone h g).2 a b = .ok h₂ →
      ∀ n ∈ g.nodes.map Prod.fst,
        hread h₂ (mapGetD g.outgoing n 0) =
          hread (hclone h g).1 (mapGetD g.outgoing n 0) ∧
        hread h₂ (mapGetD g.incoming n 0) =
          hread (hclone h g).1 (mapGetD g.incoming n 0)) ∧
    (∀ a b, ∀ n ∈ g.nodes.map Prod.fst,
      hread (hremoveDependency (hclone h g).1 (hclone h g).2 a b)
          (mapGetD g.outgoing n 0) =
        hread (hclone h g).1 (mapGetD g.outgoing n 0) ∧
      hread (hremoveDependency (hclone h g).1 (hclone h g).2 a b)
          (mapGetD g.incoming n 0) =
        hread (hclone h g).1 (mapGetD g.incoming n 0)) ∧
    (∀ a b h₂, haddDependency (hclone h g).1 g a b = .ok h₂ →
      ∀ n ∈ g.nodes.map Prod.fst,
        hread h₂ (mapGetD (hclone h g).2.outgoing n 0) =
          hread (hclone h g).1 (mapGetD (hclone h g).2.outgoing n 0) ∧
        hread h₂ (mapGetD (hclone h g).2.incoming n 0) =
          hread (hclone h g).1 (mapGetD (hclone h g).2.incoming n 0)) ∧
    (∀ a b, ∀ n ∈ g.nodes.map Prod.fst,
      hread (hremoveDependency (hclone h g).1 g a b)
          (mapGetD (hclone h g).2.outgoing n 0) =
        hread (hclone h g).1 (mapGetD (hclone h g).2.outgoing n 0) ∧
      hread (hremoveDependency (hclone h g).1 g a b)
          (mapGetD (hclone h g).2.incoming n 0) =
        hread (hclone h g).1 (mapGetD (hclone h g).2.incoming n 0)) := by
  have hbq : ∀ q ∈ g.nodes, mapGetD g.outgoing q.1 0 < h.next ∧
      mapGetD g.incoming q.1 0 < h.next :=
    fun q hq => hwf.hbound q.1 (List.mem_map.mpr ⟨q, hq, rfl⟩)
  obtain ⟨r1, r2, r3, r4, r5, r6, r7⟩ :=
    hcloneAux_spec g g.nodes h hwf.hheap hbq
  have hout : ∀ n ∈ g.nodes.map Prod.fst,
      h.next ≤ mapGetD (hclone h g).2.outgoing n 0 ∧
      hread (hclone h g).1 (mapGetD (hclone h g).2.outgoing n 0) =
        hread h (mapGetD g.outgoing n 0) := by
    intro n hn
    obtain ⟨q, hq, rfl⟩ := List.mem_map.mp hn
    have hmem : q.1 ∈ (hcloneAux g h g.nodes).2.1.map Prod.fst := by
      rw [r4]
      exact hn
    obtain ⟨oid, hoid⟩ :=
      Option.isSome_iff_exists.mp ((mapGet_isSome_iff _ _).mpr hmem)
    have hgd : mapGetD (hclone h g).2.outgoing q.1 0 = oid := by
      show mapGetD (hcloneAux g h g.nodes).2.1 q.1 0 = oid
      unfold mapGetD
      rw [hoid]
      rfl
    obtain ⟨hfresh, hval⟩ := r6 q hq oid hoid
    rw [hgd]
    exact ⟨hfresh, hval⟩
  have hin : ∀ n ∈ g.nodes.map Prod.fst,
      h.next ≤ mapGetD (hclone h g).2.incoming n 0 ∧
      hread (hclone h g).1 (mapGetD (hclone h g).2.incoming n 0) =
        hread h (mapGetD g.incoming n 0) := by
    intro n hn
    obtain ⟨q, hq, rfl⟩ := List.mem_map.mp hn
    have hmem : q.1 ∈ (hcloneAux g h g.nodes).2.2.map Prod.fst := by
      rw [r5]
      exact hn
    obtain ⟨iid, hiid⟩ :=
      Option.isSome_iff_exists.mp ((mapGet_isSome_iff _ _).mpr hmem)
    have hgd : mapGetD (hclone h g).2.incoming q.1 0 = iid := by
      show mapGetD (hcloneAux g h g.nodes).2.2 q.1 0 = iid
      unfold mapGetD
      rw [hiid]
      rfl
    obtain ⟨hfresh, hval⟩ := r7 q hq iid hiid
    rw [hgd]
    exact ⟨hfresh, hval⟩
  refine ⟨⟨rfl, rfl⟩, fun n hn => ⟨(hout n hn).2, (hin n hn).2⟩, ?_, ?_, ?_, ?_⟩
  · intro a b h₂ hok n hn
    refine ⟨haddDependency_frame _ _ a b h₂ _ hok ?_ ?_,
      haddDependency_frame _ _ a b h₂ _ hok ?_ ?_⟩
    · intro m hm hc
      have h3 := (hout m hm).1
      have h4 := (hwf.hbound n hn).1
      omega
    · intro m hm hc
      have h3 := (hin m hm).1
      have h4 := (hwf.hbound n hn).1
      omega
    · intro m hm hc
      have h3 := (hout m hm).1
      have h4 := (hwf.hbound n hn).2
      omega
    · intro m hm hc
      have h3 := (hin m hm).1
      have h4 := (hwf.hbound n hn).2
      omega
  · intro a b n hn
    refine ⟨hremoveDependency_frame _ _ a b _ ?_ ?_,
      hremoveDependency_frame _ _ a b _ ?_ ?_⟩
    · intro m hm hc
      have h3 := (hout m hm).1
      have h4 := (hwf.hbound n hn).1
      omega
    · intro m hm hc
      have h3 := (hin m hm).1
      have h4 := (hwf.hbound n hn).1
      omega
    · intro m hm hc
      have h3 := (hout m hm).1
      have h4 := (hwf.hbound n hn).2
      omega
    · intro m hm hc
      have h3 := (hin m hm).1
      have h4 := (hwf.hbound n hn).2
      omega
  · intro a b h₂ hok n hn
    refine ⟨haddDependency_frame _ _ a b h₂ _ hok ?_ ?_,
      haddDependency_frame _ _ a b h₂ _ hok ?_ ?_⟩
    · intro m hm hc
      have h3 := (hwf.hbound m hm).1
      have h4 := (hout n hn).1
      omega
    · intro m hm hc
      have h3 := (hwf.hbound m hm).2
      have h4 := (hout n hn).1
      omega
    · intro m hm hc
      have h3 := (hwf.hbound m hm).1
      have h4 := (hin n hn).1
      omega
    · intro m hm hc
      have h3 := (hwf.hbound m hm).2
      have h4 := (hin n hn).1
      omega
  · intro a b n hn
    refine ⟨hremoveDependency_frame _ _ a b _ ?_ ?_,
      hremoveDependency_frame _ _ a b _ ?_ ?_⟩
    · intro m hm hc
      have h3 := (hwf.hbound m hm).1
      have h4 := (hout n hn).1
      omega
    · intro m hm hc
      have h3 := (hwf.hbound m hm).2
      have h4 := (hout n hn).1
      omega
    · intro m hm hc
      have h3 := (hwf.hbound m hm).1
      have h4 := (hin n hn).1
      omega
    · intro m hm hc
      have h3 := (hwf.hbound m hm).2
      have h4 := (hin n hn).1
      omega

/-- Witness for C7 on a concrete two-node graph. -/
theorem claim_C7_witness :
    HWF hWit gHWit ∧
    ((hclone hWit gHWit).2.circular = gHWit.circular ∧
      (hclone hWit gHWit).2.nodes = gHWit.nodes) ∧
    hread (hclone hWit gHWit).1
        (mapGetD (hclone hWit gHWit).2.outgoing "a" 0) =
      hread hWit (mapGetD gHWit.outgoing "a" 0) :=
  ⟨by decide, (claim_C7 hWit gHWit (by decide)).1,
    ((claim_C7 hWit gHWit (by decide)).2.1 "a" (by decide)).1⟩

end DG
